import Mathlib

/-
Verification of the gtfsrtk trip-update pipeline (araichev/gtfsrtk,
gtfsrtk/main.py).

The pandas data frames of the source are modelled as Lean lists of records.
Numeric delay values are rationals; a missing value (pandas NaN) is `none`.
`groupby`/`apply` reassembly is modelled index-preservingly: the source's
pandas may emit groups in key-sorted row order, but every claim below is
about row multisets, per-index values, or tables already sorted by the group
key, where the two agree.
-/

/-- Lexicographic strict comparison of character lists by code point, the
order Python uses to compare strings. -/
def charListLt : List Char → List Char → Bool
  | _, [] => false
  | [], _ :: _ => true
  | a :: as, b :: bs => decide (a < b) || (a == b && charListLt as bs)

/-- Python-style strict lexicographic order on strings. -/
def strLt (a b : String) : Bool := charListLt a.data b.data

/-- Python-style non-strict lexicographic order on strings, used for the
admission-window comparison `start_datetime <= datetime <= end_datetime`. -/
def strLe (a b : String) : Bool := strLt a b || a == b

/-- Insertion of an element into a list sorted by a boolean comparator;
building block of the model of `DataFrame.sort_values`. -/
def insertLe {α : Type} (le : α → α → Bool) (a : α) : List α → List α
  | [] => [a]
  | b :: l => if le a b then a :: b :: l else b :: insertLe le a l

/-- Stable insertion sort by a boolean comparator, the model of
`DataFrame.sort_values` (row order among equal keys is immaterial to every
claim proved here). -/
def sortLe {α : Type} (le : α → α → Bool) : List α → List α
  | [] => []
  | a :: l => insertLe le a (sortLe le l)

/-- Split of a character list at every occurrence of a separator character,
the semantics of Python `str.split(sep)` for a one-character separator. -/
def splitOnChar (c : Char) : List Char → List (List Char)
  | [] => [[]]
  | a :: rest =>
      let r := splitOnChar c rest
      if a == c then [] :: r
      else
        match r with
        | [] => [[a]]
        | h :: t => (a :: h) :: t

def natOfDigitsAux : List Char → ℕ → Option ℕ
  | [], acc => some acc
  | a :: rest, acc =>
      if a.isDigit then natOfDigitsAux rest (acc * 10 + (a.toNat - 48)) else none

/-- Parse of a non-empty all-digit character list into a natural number, the
semantics of Python `int()` on a decimal digit string. -/
def natOfDigits? : List Char → Option ℕ
  | [] => none
  | l => natOfDigitsAux l 0

/-- Python `int()` on a decimal string. -/
def strToNat? (s : String) : Option ℕ := natOfDigits? s.data

/-- Python `int()` on a possibly negated decimal string. -/
def strToInt? (s : String) : Option ℤ :=
  match s.data with
  | '-' :: rest => (natOfDigits? rest).map (fun n => -(n : ℤ))
  | l => (natOfDigits? l).map (fun n => (n : ℤ))

/-- Substring membership `pat in s` of Python, over character lists. -/
def containsSubAux (pat : List Char) : List Char → Bool
  | [] => decide (pat = [])
  | a :: rest => decide (pat = (a :: rest).take pat.length) || containsSubAux pat rest

/-- One delay observation, a row of the data frame built by
`extract_delays`: columns route_id, trip_id, stop_sequence, stop_id,
arrival_delay, departure_delay. -/
structure DelayRow where
  route_id : String
  trip_id : String
  stop_sequence : ℤ
  stop_id : String
  arrival_delay : Option ℚ
  departure_delay : Option ℚ
deriving DecidableEq, Repr, Inhabited

/-- The merge key `['route_id', 'trip_id', 'stop_sequence']` of
`combine_delays`. -/
def obsKey (r : DelayRow) : String × String × ℤ := (r.route_id, r.trip_id, r.stop_sequence)

/-- Lexicographic order on the three-part sort key. -/
def keyLex (a b : String × String × ℤ) : Bool :=
  strLt a.1 b.1 ||
    (a.1 == b.1 && (strLt a.2.1 b.2.1 || (a.2.1 == b.2.1 && decide (a.2.2 ≤ b.2.2))))

/-- Comparator for `f.sort_values(['route_id', 'trip_id', 'stop_sequence'])`. -/
def obsLe (a b : DelayRow) : Bool := keyLex (obsKey a) (obsKey b)

/-- Model of `DataFrame.drop_duplicates`: keep the first occurrence of each
fully identical row. The accumulator holds the rows already seen. -/
def dedupSeen : List DelayRow → List DelayRow → List DelayRow
  | _, [] => []
  | seen, a :: l => if a ∈ seen then dedupSeen seen l else a :: dedupSeen (a :: seen) l

/-- Model of `DataFrame.drop_duplicates` (keep='first', the pandas default). -/
def dropDuplicates (l : List DelayRow) : List DelayRow := dedupSeen [] l

/-- Model of `dropna(subset=['arrival_delay', 'departure_delay'], how='all')`:
keep a row iff at least one delay field is present. -/
def dropBothNull (l : List DelayRow) : List DelayRow :=
  l.filter (fun r => r.arrival_delay.isSome || r.departure_delay.isSome)

/-- One backfill collision of `combine_delays`: for each delay column, if the
kept row's value is null and the colliding row's value is non-null, copy it
in; a present value is never overwritten. -/
def mergeInto (kept r : DelayRow) : DelayRow :=
  { kept with
    arrival_delay := kept.arrival_delay.or r.arrival_delay
    departure_delay := kept.departure_delay.or r.departure_delay }

/-- The walk of `combine_delays` over the sorted rows: a row sharing the
current key is folded into the kept row, a new key emits the kept row and
starts a new one. -/
def backfillGo (kept : DelayRow) : List DelayRow → List DelayRow
  | [] => [kept]
  | r :: rest =>
      if obsKey r = obsKey kept then backfillGo (mergeInto kept r) rest
      else kept :: backfillGo r rest

/-- The whole backfill walk (`prev_tup = None` initially). -/
def backfill : List DelayRow → List DelayRow
  | [] => []
  | r :: rest => backfillGo r rest

/-- Core of `combine_delays` on the concatenated rows: drop duplicates, drop
rows with both delays null, sort by the merge key, backfill. -/
def combineRows (rows : List DelayRow) : List DelayRow :=
  backfill (sortLe obsLe (dropBothNull (dropDuplicates rows)))

/-- Errors that the modelled pipeline can raise. -/
inductive PipeErr where
  | badPath
  | concatEmpty
  | keyError
  | typeError
  | valueError
  | badTime
deriving DecidableEq, Repr

/-- Model of `combine_delays`: `pd.concat` raises `ValueError` when handed an
empty list of frames; otherwise the concatenation is processed by
`combineRows`. -/
def combine_delays (frames : List (List DelayRow)) : Except PipeErr (List DelayRow) :=
  if frames.isEmpty then .error .concatEmpty else .ok (combineRows frames.flatten)

/-- JSON-like values: the decoded GTFSr feed payloads handed to the parser
(the source decodes JSON into Python dicts; delay and timestamp values are
integer seconds per the feed interface). -/
inductive JVal where
  | null
  | num (n : ℤ)
  | str (s : String)
  | arr (elems : List JVal)
  | obj (fields : List (String × JVal))

/-- Dictionary access `v[k]` when `v` is an object; `none` models both a
missing key (Python `KeyError`) and indexing a non-dict (Python `TypeError`),
which the parser's `except (TypeError, KeyError)` treats alike. -/
def JVal.lookup : JVal → String → Option JVal
  | .obj fs, k => (fs.find? (fun kv => kv.1 == k)).map (fun kv => kv.2)
  | _, _ => none

/-- Python truthiness test `not feed` on a decoded JSON value. -/
def JVal.falsy : JVal → Bool
  | .null => true
  | .num n => n == 0
  | .str s => s == ""
  | .arr l => l.isEmpty
  | .obj l => l.isEmpty

/-- Modelled from the spec: the timestamp formatting helper lives in
`gtfsrtk.utilities`, which is not among the sources; per the spec the
format is a caller-configurable, invertible rendering of epoch seconds.
No claim depends on the rendered shape of a feed-header timestamp, so an
injective placeholder rendering is used. -/
def timestampToStr (n : ℤ) : String := toString n

/-- Outcome of scanning one entity of a feed: skipped (no trip_update),
one parsed observation, a caught `KeyError`/`TypeError`, or an uncaught
`ValueError` from `int()` coercion. -/
inductive EntityScan where
  | skip
  | row (r : DelayRow)
  | caught
  | valueErr
deriving DecidableEq, Repr

/-- Python `int(v)` on a decoded JSON scalar: numbers pass through, numeric
strings are parsed, a non-numeric string raises `ValueError` (not caught by
the parser), and any other type raises `TypeError` (caught). -/
inductive CoerceInt where
  | ok (n : ℤ)
  | typeErr
  | valueErr
deriving DecidableEq, Repr

def coerceInt : JVal → CoerceInt
  | .num n => .ok n
  | .str s =>
      match strToInt? s with
      | some n => .ok n
      | none => .valueErr
  | _ => .typeErr

/-- Python `str(v)`: total coercion to string (container renderings are
placeholders; realistic stop_id values are strings or numbers). -/
def pyStr : JVal → String
  | .str s => s
  | .num n => toString n
  | .null => "None"
  | .arr _ => "<list>"
  | .obj _ => "<dict>"

/-- Projection of an optional JSON value to a string, used for the trip's
route_id and trip_id references. -/
def asStrHelper : Option JVal → Option String
  | some (.str s) => some s
  | _ => none

/-- Membership test for reading one delay sub-object: `if key in stu:
delay[key] = stu[key]['delay']`. An absent key yields an absent delay (not
zero); a present key whose sub-object lacks 'delay' or holds a non-number is
the caught error class. -/
def readDelay (stu : JVal) (k : String) : Except Unit (Option ℚ) :=
  match stu.lookup k with
  | none => .ok none
  | some sub =>
      match sub.lookup ("delay") with
      | some (.num n) => .ok (some (n : ℚ))
      | _ => .error ()

/-- Value of `.data` substring test used to model `'trip_update' in e` when
`e` is a Python string. -/
def strContains (s pat : String) : Bool := containsSubAux pat.data s.data

/-- Scan of one retained entity's trip_update, following the source's read
order: route_id, trip_id, stop_time_update, stop_sequence (int-coerced),
stop_id (str-coerced), then the two optional delay sub-objects. A non-string
route/trip id is folded into the caught class (in the source such a value
would instead poison the later mixed-type sort; no feed in scope does this). -/
def parseTripUpdate (tu : JVal) : EntityScan :=
  match asStrHelper ((tu.lookup ("trip")).bind (fun t => t.lookup ("route_id"))) with
  | none => .caught
  | some rid =>
  match asStrHelper ((tu.lookup ("trip")).bind (fun t => t.lookup ("trip_id"))) with
  | none => .caught
  | some tid =>
  match tu.lookup ("stop_time_update") with
  | none => .caught
  | some stu =>
  match stu.lookup ("stop_sequence") with
  | none => .caught
  | some seqv =>
  match coerceInt seqv with
  | .typeErr => .caught
  | .valueErr => .valueErr
  | .ok seq =>
  match stu.lookup ("stop_id") with
  | none => .caught
  | some sidv =>
  match readDelay stu ("arrival"), readDelay stu ("departure") with
  | .ok ad, .ok dd => .row ⟨rid, tid, seq, pyStr sidv, ad, dd⟩
  | _, _ => .caught

/-- Scan of one entity `e` of the feed: `if 'trip_update' not in e: continue`,
then the trip_update parse. Non-dict entities follow Python's `in` semantics:
membership/substring tests on lists and strings, `TypeError` on scalars. -/
def parseEntity (e : JVal) : EntityScan :=
  match e with
  | .obj fs =>
      match (JVal.obj fs).lookup ("trip_update") with
      | none => .skip
      | some tu => parseTripUpdate tu
  | .str s => if strContains s ("trip_update") then .caught else .skip
  | .arr xs =>
      if xs.any (fun v =>
          match v with
          | .str t => t == "trip_update"
          | _ => false) then .caught else .skip
  | .null => .caught
  | .num _ => .caught

/-- The entity loop of `extract_delays`, inside one `try`: a caught error
aborts the loop but keeps the rows appended so far; an uncaught `ValueError`
propagates and destroys the whole call. -/
def scanEntities : List JVal → Except PipeErr (List DelayRow)
  | [] => .ok []
  | e :: rest =>
      match parseEntity e with
      | .skip => scanEntities rest
      | .row r => (scanEntities rest).map (fun rs => r :: rs)
      | .caught => .ok []
      | .valueErr => .error .valueError

/-- Model of `get_timestamp`: falsy feeds yield `None`; otherwise the header
timestamp is read outside any `try`, so a missing or malformed header
propagates an exception. -/
def getTimestamp (feed : JVal) : Except PipeErr (Option String) :=
  if feed.falsy then .ok none
  else
    match ((feed.lookup ("response")).bind (fun r => r.lookup ("header"))).bind
        (fun h => h.lookup ("timestamp")) with
    | some (.num n) => .ok (some (timestampToStr n))
    | some (.str s) =>
        match strToInt? s with
        | some n => .ok (some (timestampToStr n))
        | none => .error .valueError
    | some _ => .error .typeError
    | none => .error .keyError

/-- Model of `extract_delays`: timestamp first (can raise), then the guarded
entity loop (missing `response`/`entity` or a non-list value end with zero
rows), then the sort by (route_id, trip_id, stop_sequence). -/
def extract_delays (feed : JVal) : Except PipeErr (List DelayRow × Option String) := do
  let t ← getTimestamp feed
  let rows ←
    match (feed.lookup ("response")).bind (fun r => r.lookup ("entity")) with
    | some (.arr es) => scanEntities es
    | _ => .ok []
  .ok (sortLe obsLe rows, t)

/-- One row of the scheduled stop-times table `gt.get_stop_times(gtfs_feed,
date)` for the service date (the schedule-access collaborator of the spec):
clock strings may exceed 24:00:00, shape_dist_traveled may be missing. -/
structure StopTimeRow where
  trip_id : String
  stop_id : String
  stop_sequence : ℤ
  arrival_time : String
  departure_time : String
  shape_dist_traveled : Option ℚ
deriving DecidableEq, Repr, Inhabited

/-- Modelled from the spec: the schedule-access collaborator (`gtfstk`)
converts clock strings 'HH:MM:SS' (hours may exceed 23) into seconds;
failure yields `none` (the collaborator's NaN). -/
def timestrToSeconds (s : String) : Option ℕ :=
  match splitOnChar ':' s.data with
  | [h, m, sec] =>
      match natOfDigits? h, natOfDigits? m, natOfDigits? sec with
      | some a, some b, some c => some (3600 * a + 60 * b + c)
      | _, _, _ => none
  | _ => none

/-- Python `str.replace(':', '')` specialised to stripping colons. -/
def stripColons (s : String) : String := String.mk (s.data.filter (fun a => !(a == ':')))

/-- Zero-padded two-digit rendering of a small number. -/
def pad2 (k : ℕ) : String := if k < 10 then "0" ++ toString k else toString k

/-- Modelled from the spec: the inverse conversion, seconds to 'HH:MM:SS'
(the hour field may exceed 23). -/
def secondsToTimestr (n : ℕ) : String :=
  pad2 (n / 3600) ++ (":") ++ pad2 ((n % 3600) / 60) ++ (":") ++ pad2 (n % 60)

/-- Modelled from the spec: `gt.timestr_mod24` reduces the hour field of a
clock string modulo 24. -/
def timestrMod24 (s : String) : String :=
  match timestrToSeconds s with
  | some n => secondsToTimestr (n % (24 * 3600))
  | none => s

/-- Model of `Series.max` over the departure-time strings: the
lexicographically greatest string, `none` on an empty schedule. -/
def maxString : List String → Option String
  | [] => none
  | s :: l =>
      match maxString l with
      | none => some s
      | some m => some (if strLt m s then s else m)

/-- The end date chosen by build_augmented_stop_times: when the padded end
time passes 24:00:00 the source computes `str(int(date) + 1)`, the numeric
successor of the YYYYMMDD string; otherwise the date itself. (`int()` cannot
fail on a well-formed date string; the fallback arm is unreachable there.) -/
def windowEndDate (date : String) (endTimeSecs : ℕ) : String :=
  if 24 * 3600 ≤ endTimeSecs then
    match strToNat? date with
    | some n => toString (n + 1)
    | none => date
  else date

/-- The end.datetime string of the admission window: maximum scheduled
departure plus the 20-minute fuzz, rolled by `windowEndDate` and rendered
modulo 24 hours with the colons stripped. `none` models the crash the source
suffers when the schedule yields no parseable departure time. -/
def computeEndDatetime (date : String) (st : List StopTimeRow) : Option String := do
  let maxDep ← maxString (st.map (fun r => r.departure_time))
  let secs ← timestrToSeconds maxDep
  let endTime := secs + 20 * 60
  let endDate := windowEndDate date endTime
  some (endDate ++ stripColons (timestrMod24 (secondsToTimestr endTime)))

/-- The GTFSr snapshot directory: an existence flag and the files in
iteration order, each a canonical `YYYYMMDDHHMMSS` timestamp stem (the
round-trip through the configurable format is the identity on canonical
stems) with its decoded JSON content. -/
structure GtfsrDir where
  present : Bool
  files : List (String × JVal)

/-- A merged observation after `del delays['route_id']`. -/
structure ObsRow where
  trip_id : String
  stop_sequence : ℤ
  stop_id : String
  arrival_delay : Option ℚ
  departure_delay : Option ℚ
deriving DecidableEq, Repr

def delRouteId (r : DelayRow) : ObsRow :=
  ⟨r.trip_id, r.stop_sequence, r.stop_id, r.arrival_delay, r.departure_delay⟩

/-- A scheduled stop time augmented with the joined delay columns. -/
structure AugRow extends StopTimeRow where
  arrival_delay : Option ℚ
  departure_delay : Option ℚ
deriving DecidableEq, Repr

/-- The join key `['trip_id', 'stop_id', 'stop_sequence']` on the observation
side. -/
def obsJoinKey (d : ObsRow) : String × String × ℤ := (d.trip_id, d.stop_id, d.stop_sequence)

/-- The join key on the schedule side. -/
def stJoinKey (s : StopTimeRow) : String × String × ℤ := (s.trip_id, s.stop_id, s.stop_sequence)

/-- Model of `st.merge(delays, how='left', on=['trip_id', 'stop_id',
'stop_sequence'])`: each schedule row is paired with every matching
observation, or carries null delays when none matches. -/
def leftMerge (st : List StopTimeRow) (ds : List ObsRow) : List AugRow :=
  (st.map (fun s =>
    let ms := ds.filter (fun d => decide (obsJoinKey d = stJoinKey s))
    if ms.isEmpty then [{ toStopTimeRow := s, arrival_delay := none, departure_delay := none }]
    else ms.map (fun d =>
      { toStopTimeRow := s, arrival_delay := d.arrival_delay,
        departure_delay := d.departure_delay }))).flatten

/-- Comparator for the final `ast.sort_values(['trip_id', 'stop_sequence'])`. -/
def astLe (a b : AugRow) : Bool :=
  strLt a.trip_id b.trip_id ||
    (a.trip_id == b.trip_id && decide (a.stop_sequence ≤ b.stop_sequence))

/-- The admission filter of build_augmented_stop_times: a snapshot is kept iff
its canonical timestamp stem falls lexicographically within
`[date + '000000', end_datetime]`. -/
def admittedFiles (dir : GtfsrDir) (date : String) (st : List StopTimeRow) :
    Option (List (String × JVal)) :=
  (computeEndDatetime date st).map (fun endDT =>
    dir.files.filter (fun f => strLe (date ++ ("000000")) f.1 && strLe f.1 endDT))

/-- The per-admitted-snapshot extraction loop of build_augmented_stop_times:
each file's decoded content is parsed by `extract_delays` (whose uncaught
errors propagate) and the delay frames are collected in order. -/
def extractFrames : List (String × JVal) → Except PipeErr (List (List DelayRow))
  | [] => .ok []
  | f :: rest => do
      let d ← extract_delays f.2
      let ds ← extractFrames rest
      .ok (d.1 :: ds)

/-- Stages of build_augmented_stop_times through combine_delays and the
route_id drop: directory check, admission, extraction, combination (raises on
zero admitted snapshots), column drop. -/
def mergedObs (dir : GtfsrDir) (st : List StopTimeRow) (date : String) :
    Except PipeErr (List ObsRow) :=
  if !dir.present then .error .badPath
  else
    match admittedFiles dir date st with
    | none => .error .badTime
    | some adm => do
        let frames ← extractFrames adm
        let combined ← combine_delays frames
        .ok (combined.map delRouteId)

/-- Model of `build_augmented_stop_times`: merged observations left-joined
onto the schedule for the date, sorted by (trip_id, stop_sequence). -/
def build_augmented_stop_times (dir : GtfsrDir) (st : List StopTimeRow) (date : String) :
    Except PipeErr (List AugRow) := do
  let ds ← mergedObs dir st date
  .ok (sortLe astLe (leftMerge st ds))

/-- A row of the cleaning stage: a stop time with the joined delay columns
and the computed `delay` column. The orchestrator drops the two joined
columns after `append_delay_col`; the drop is pure data erasure with no
behavioral effect downstream, so the model keeps the fields in the type. -/
structure TripRow where
  trip_id : String
  stop_id : String
  stop_sequence : ℤ
  shape_dist_traveled : Option ℚ
  arrival_delay : Option ℚ
  departure_delay : Option ℚ
  delay : Option ℚ
deriving DecidableEq, Repr, Inhabited

/-- Injection of a joined row into the cleaning stage (no delay column yet). -/
def augToTrip (r : AugRow) : TripRow :=
  ⟨r.trip_id, r.stop_id, r.stop_sequence, r.shape_dist_traveled,
    r.arrival_delay, r.departure_delay, none⟩

/-- Python `abs` on a rational. -/
def absQ (q : ℚ) : ℚ := if q < 0 then -q else q

/-- The fishy-delay rule of `append_delay_col`: a delay of magnitude at least
the cutoff becomes null; `abs(NaN) >= cutoff` is false in pandas, so a null
delay stays null. -/
def nullifyFishy (cutoff : ℚ) : Option ℚ → Option ℚ
  | some v => if cutoff ≤ absQ v then none else some v
  | none => none

/-- The per-row delay assignment of `append_delay_col`: the delay column is a
copy of departure_delay, then each trip group's positionally last row (there
is no later row of the same trip) is overwritten with its arrival_delay;
finally the fishy-delay rule is applied to the whole column. -/
def appendGo (cutoff : ℚ) : List TripRow → List TripRow
  | [] => []
  | r :: rest =>
      { r with delay := (nullifyFishy cutoff
          (if rest.all (fun s => !(s.trip_id == r.trip_id)) then r.arrival_delay
           else r.departure_delay)) } :: appendGo cutoff rest

/-- Model of `append_delay_col` (delay_cutoff passed explicitly; the source
default is 3600). -/
def append_delay_col (rows : List TripRow) (cutoff : ℚ) : List TripRow :=
  appendGo cutoff rows

/-- The `dist_diff > dist_threshold` test of `interpolate_delays`. A missing
distance makes the difference NaN, and a NaN comparison is false in pandas,
so the test degrades to the else branch. -/
def distDiffGt (a b : Option ℚ) (t : ℚ) : Bool :=
  match a, b with
  | some x, some y => decide (t < absQ (x - y))
  | _, _ => false

def firstSomeIdxAux : List TripRow → ℕ → Option ℕ
  | [], _ => none
  | r :: rest, i => if r.delay.isSome then some i else firstSomeIdxAux rest (i + 1)

/-- Position of the first non-null delay in a trip group
(`group[delay_col].dropna().index[0]`). -/
def firstSomeIdx (g : List TripRow) : Option ℕ := firstSomeIdxAux g 0

def lastSomeIdxAux : List TripRow → ℕ → Option ℕ
  | [], _ => none
  | r :: rest, i =>
      match lastSomeIdxAux rest (i + 1) with
      | some j => some j
      | none => if r.delay.isSome then some i else none

/-- Position of the last non-null delay in a trip group
(`group[delay_col].dropna().index[-1]`). -/
def lastSomeIdx (g : List TripRow) : Option ℕ := lastSomeIdxAux g 0

/-- In-place update of one row's delay (`group[delay_col].iat[i] = v`). -/
def setDelayAt : List TripRow → ℕ → Option ℚ → List TripRow
  | [], _, _ => []
  | r :: rest, 0, v => { r with delay := v } :: rest
  | r :: rest, i + 1, v => r :: setDelayAt rest i v

/-- Positional row access `.iat`/`.ix` (indices are in range at call sites). -/
def rowAt : List TripRow → ℕ → TripRow
  | [], _ => default
  | r :: _, 0 => r
  | _ :: rest, i + 1 => rowAt rest i

def delayAt (g : List TripRow) (j : ℕ) : Option ℚ := (rowAt g j).delay

def distAt (g : List TripRow) (j : ℕ) : Option ℚ := (rowAt g j).shape_dist_traveled

/-- The boundary value written at position `i` from anchor position `j`: zero
when the distance gap exceeds the threshold, the anchor's delay otherwise. -/
def pinVal (t : ℚ) (g : List TripRow) (i j : ℕ) : Option ℚ :=
  if distDiffGt (distAt g i) (distAt g j) t then some 0 else delayAt g j

/-- The `for i in [0, -1]` boundary loop of `interpolate_delays.fill`: the
first stop is pinned from the first non-null delay, then the last stop is
pinned from the last non-null delay of the updated group. -/
def pin (t : ℚ) (g : List TripRow) : List TripRow :=
  match firstSomeIdx g with
  | none => g
  | some j0 =>
      let g1 := setDelayAt g 0 (pinVal t g 0 j0)
      match lastSomeIdx g1 with
      | none => g1
      | some j1 => setDelayAt g1 (g1.length - 1) (pinVal t g1 (g1.length - 1) j1)

/-- Model of `np.interp x xp fp` with the anchor list zipped into pairs,
following numpy's documented behavior for increasing `xp`: clamp outside the
anchor range, linear interpolation between neighbouring anchors. numpy never
checks that `xp` is increasing and documents the result as nonsense
otherwise; no theorem below relies on that region. -/
def npInterp (x : ℚ) : List (ℚ × ℚ) → ℚ
  | [] => 0
  | [p] => p.2
  | p :: q :: rest =>
      if x ≤ p.1 then p.2
      else if x ≤ q.1 then p.2 + (x - p.1) * (q.2 - p.2) / (q.1 - p.1)
      else npInterp x (q :: rest)

/-- The anchor list `zip(xp, fp)` of the `np.interp` call: the rows with a
non-null delay. A null anchor distance would feed NaN into `np.interp` in the
source (a documented-nonsense region); the model reads it as 0 and no theorem
touches that case. -/
def anchorsOf (g : List TripRow) : List (ℚ × ℚ) :=
  g.filterMap (fun r => r.delay.map (fun d => (r.shape_dist_traveled.getD 0, d)))

/-- The per-trip `fill` of `interpolate_delays`: an all-null group is left
alone; otherwise the boundary pins run and the whole delay column is
recomputed by `np.interp` over the non-null anchors (a NaN distance yields a
NaN delay). -/
def fillGroup (t : ℚ) (g : List TripRow) : List TripRow :=
  if g.all (fun r => r.delay.isNone) then g
  else
    let p := pin t g
    let pts := anchorsOf p
    p.map (fun r => { r with delay := r.shape_dist_traveled.map (fun x => npInterp x pts) })

/-- Walk for `groupApply`: `before` holds the rows already passed, so the
count of earlier same-trip rows indexes into the processed group. -/
def groupApplyGo (f : List TripRow → List TripRow) (rows : List TripRow) :
    List TripRow → List TripRow → List TripRow
  | _, [] => []
  | before, r :: rest =>
      (f (rows.filter (fun s => s.trip_id == r.trip_id))).getD
        (before.countP (fun s => s.trip_id == r.trip_id)) r ::
      groupApplyGo f rows (before ++ [r]) rest

/-- Model of `groupby('trip_id').apply(f)` with same-length groups: row `i`
receives its counterpart from `f` applied to the subsequence of rows sharing
its trip_id. -/
def groupApply (f : List TripRow → List TripRow) (rows : List TripRow) : List TripRow :=
  groupApplyGo f rows [] rows

/-- Rounding half-to-even of a rational to an integer, the behavior of
`np.round`/`Series.round`. -/
def roundHalfEven (q : ℚ) : ℤ :=
  if q - ⌊q⌋ < 1 / 2 then ⌊q⌋
  else if 1 / 2 < q - ⌊q⌋ then ⌊q⌋ + 1
  else if 2 ∣ ⌊q⌋ then ⌊q⌋ else ⌊q⌋ + 1

/-- Rounding to `d` decimal places, half to even. -/
def round10 (d : ℕ) (q : ℚ) : ℚ := (roundHalfEven (q * 10 ^ d) : ℚ) / 10 ^ d

/-- Model of `interpolate_delays` (the delay column is the `delay` field; the
source's early return when the column is absent cannot arise in the typed
model). A fully non-null column returns unchanged before any rounding;
otherwise every trip group is filled and the whole column rounded. -/
def interpolate_delays (rows : List TripRow) (t : ℚ) (numDecimals : Option ℕ) : List TripRow :=
  if rows.all (fun r => r.delay.isSome) then rows
  else
    let f := groupApply (fillGroup t) rows
    match numDecimals with
    | some d => f.map (fun r => { r with delay := r.delay.map (round10 d) })
    | none => f

/-- Model of `clean_augmented_stop_times`: append the delay column (cutoff
3600), drop the joined columns (data erasure, kept in the type), and
interpolate when shape_dist_traveled has at least one non-null value. -/
def clean_augmented_stop_times (rows : List AugRow) (t : ℚ) : List TripRow :=
  let f := append_delay_col (rows.map augToTrip) 3600
  if f.any (fun r => r.shape_dist_traveled.isSome) then interpolate_delays f t (some 0) else f

/-- Model of the full merge/interpolate invocation:
build_augmented_stop_times followed by clean_augmented_stop_times. -/
def buildAndClean (dir : GtfsrDir) (st : List StopTimeRow) (date : String) (t : ℚ) :
    Except PipeErr (List TripRow) :=
  (build_augmented_stop_times dir st date).map (fun ast => clean_augmented_stop_times ast t)

/-- Follows the claim's words (C5): the stop whose stop_sequence is maximal
within its trip. -/
def isMaxSeqOfTrip (rows : List TripRow) (r : TripRow) : Bool :=
  rows.all (fun s => !(s.trip_id == r.trip_id) || decide (s.stop_sequence ≤ r.stop_sequence))

/-- Follows the claim's words (C5): delay equals departure_delay except at
the stop with the maximum stop_sequence within its trip, which takes
arrival_delay; then the fishy-delay rule. -/
def claimAppendDelayCol (rows : List TripRow) (cutoff : ℚ) : List TripRow :=
  rows.map (fun r =>
    { r with delay := (nullifyFishy cutoff
        (if isMaxSeqOfTrip rows r then r.arrival_delay else r.departure_delay)) })

/-- Follows the spec's words (C4): both boundary stops pinned against the
first and last non-null delays of the original group. -/
def specPin (t : ℚ) (g : List TripRow) : List TripRow :=
  match firstSomeIdx g, lastSomeIdx g with
  | some j0, some j1 =>
      setDelayAt (setDelayAt g 0 (pinVal t g 0 j0)) (g.length - 1)
        (pinVal t g (g.length - 1) j1)
  | _, _ => g

/-- Follows the spec's words (C4): pin the boundary stops, keep every
already-known delay, and fill each remaining null delay by piecewise-linear
interpolation against shape_dist_traveled over the known anchors. -/
def specFillTrip (t : ℚ) (g : List TripRow) : List TripRow :=
  if g.all (fun r => r.delay.isNone) then g
  else
    let p := specPin t g
    let pts := anchorsOf p
    p.map (fun r =>
      if r.delay.isSome then r
      else { r with delay := r.shape_dist_traveled.map (fun x => npInterp x pts) })

/-- State of the retry loop of `collect_feeds`: the `success` flag and the
attempt counter `n` (initialised to 1). -/
structure RetryState where
  success : Bool
  n : ℕ
deriving DecidableEq, Repr

/-- One pass of the `while not success and n <= num_tries` body when the
fetch raises (`requestFails = true`): the `continue` statement jumps back to
the loop condition before `n += 1` runs, so the state is unchanged. On a
successful fetch the flag is set and `n` incremented. -/
def retryStep (requestFails : Bool) (s : RetryState) : RetryState :=
  if requestFails then s else { success := true, n := s.n + 1 }

/-- The loop guard `not success and n <= num_tries`. -/
def retryGuard (numTries : ℕ) (s : RetryState) : Bool :=
  !s.success && decide (s.n ≤ numTries)

/-- The state on entry to the retry loop (`success = False; n = 1`). -/
def retryInit : RetryState := ⟨false, 1⟩

/-- Iterated failing attempts. -/
def iterFail : ℕ → RetryState → RetryState
  | 0, s => s
  | k + 1, s => iterFail k (retryStep true s)

/-- Gregorian leap-year rule. -/
def isLeapYear (y : ℕ) : Bool := (y % 4 == 0 && y % 100 != 0) || (y % 400 == 0)

/-- Days in a Gregorian month. -/
def daysInMonth (y m : ℕ) : ℕ :=
  if m == 2 then (if isLeapYear y then 29 else 28)
  else if m == 4 || m == 6 || m == 9 || m == 11 then 30
  else 31

/-- Zero-padded four-digit rendering. -/
def pad4 (k : ℕ) : String :=
  if k < 10 then "000" ++ toString k
  else if k < 100 then "00" ++ toString k
  else if k < 1000 then "0" ++ toString k
  else toString k

/-- Follows the claim's words (C6): the calendar date following a YYYYMMDD
service date, correct across month and year boundaries. -/
def calendarNextDate (date : String) : Option String :=
  match strToNat? date with
  | none => none
  | some n =>
      if date.length != 8 then none
      else
        let y := n / 10000
        let m := (n / 100) % 100
        let d := n % 100
        if m = 0 || 12 < m || d = 0 || daysInMonth y m < d then none
        else if d < daysInMonth y m then some (pad4 y ++ pad2 m ++ pad2 (d + 1))
        else if m < 12 then some (pad4 y ++ pad2 (m + 1) ++ pad2 1)
        else some (pad4 (y + 1) ++ pad2 1 ++ pad2 1)

/-- Comparison of optional distances used to state the monotonicity
hypotheses of the interpolation theorems. -/
def optLtB : Option ℚ → Option ℚ → Bool
  | some x, some y => decide (x < y)
  | _, _ => false

/-- First present value of a list of optional values: what the first-wins
backfill leaves in a delay field. -/
def firstSome (l : List (Option ℚ)) : Option ℚ := (l.filterMap id).head?

/-- The observation parsed from an entity, when the scan yields one. -/
def entityRow (e : JVal) : Option DelayRow :=
  match parseEntity e with
  | .row r => some r
  | _ => none

/-- An entity whose scan raises nothing (it is skipped or yields a row). -/
def entityClean (e : JVal) : Bool :=
  match parseEntity e with
  | .skip => true
  | .row _ => true
  | .caught => false
  | .valueErr => false

/-- A delay sub-object `{'delay': d}` of a feed entity. -/
def mkDelayObj (d : ℤ) : JVal := .obj [("delay", .num d)]

/-- A well-formed feed entity with the given trip reference, stop fields and
optional delays. -/
def mkEntity (rid tid : String) (seq : ℤ) (sid : String) (ad dd : Option ℤ) : JVal :=
  .obj [("trip_update", .obj
    [("trip", .obj [("route_id", .str rid), ("trip_id", .str tid)]),
     ("stop_time_update", .obj
        ([("stop_sequence", JVal.num seq), ("stop_id", JVal.str sid)] ++
         (match ad with | some d => [("arrival", mkDelayObj d)] | none => []) ++
         (match dd with | some d => [("departure", mkDelayObj d)] | none => [])))])]

/-- A well-formed feed payload with the given header timestamp and entities. -/
def mkFeed (ts : ℤ) (ents : List JVal) : JVal :=
  .obj [("response", .obj
    [("header", .obj [("timestamp", .num ts)]), ("entity", .arr ents)])]

/-- A one-row schedule for the examples: trip t1 stops once at s1, departing
10:00:00, so the admission window of 2016-05-19 ends at 20160519102000. -/
def exSt1 : List StopTimeRow := [⟨"t1", "s1", 1, "07:00:00", "10:00:00", some 0⟩]

def exDate1 : String := "20160519"

/-- Two admitted snapshots observing the same (trip, stop, stop_sequence)
under two different route_ids. -/
def exDir1 : GtfsrDir :=
  ⟨true, [("20160519090000", mkFeed 1463616000 [mkEntity "r1" "t1" 1 "s1" (some 5) none]),
          ("20160519090100", mkFeed 1463616060 [mkEntity "r2" "t1" 1 "s1" (some 6) none])]⟩

/-- One admitted snapshot with a single observation. -/
def exDir2 : GtfsrDir :=
  ⟨true, [("20160519090000", mkFeed 1463616000 [mkEntity "r1" "t1" 1 "s1" (some 5) none])]⟩

/-- An existing, non-empty snapshot directory none of whose snapshots falls
inside the admission window of 2016-05-19. -/
def exDir8 : GtfsrDir :=
  ⟨true, [("20160520120000", mkFeed 1463702400 [mkEntity "r1" "t1" 1 "s1" (some 5) none])]⟩

/-- A parseable entity: route r1, trip t1, stop s1, arrival delay 5. -/
def goodEnt : JVal := mkEntity "r1" "t1" 1 "s1" (some 5) none

/-- An entity with a trip_update but no trip reference: scanning it raises
the caught KeyError. -/
def badEnt : JVal := .obj [("trip_update", .obj [("stop_time_update", JVal.null)])]

/-- A feed whose second entity is structurally broken and whose third is
well-formed again. -/
def feedC7 : JVal := mkFeed 100 [goodEnt, badEnt, goodEnt]

/-- A three-stop trip: departure delays 10, 20, 30 and a terminal arrival
delay 25 (the DelayColumnBuilder example of the spec). -/
def exRows5 : List TripRow :=
  [⟨"t1", "s1", 1, none, none, some 10, none⟩,
   ⟨"t1", "s2", 2, none, none, some 20, none⟩,
   ⟨"t1", "s3", 3, none, some 25, some 30, none⟩]

/-- A trip whose rows are not in stop_sequence order: the positionally last
row has the smaller stop_sequence. -/
def exRows5bad : List TripRow :=
  [⟨"t1", "s1", 2, none, some 5, some 10, none⟩,
   ⟨"t1", "s2", 1, none, some 7, some 20, none⟩]

/-- The DelayInterpolator example of the spec: four stops at distances
0, 3, 7, 10 with only the second delay known (50). -/
def exRows4 : List TripRow :=
  [⟨"t1", "s1", 1, some 0, none, none, none⟩,
   ⟨"t1", "s2", 2, some 3, none, none, some 50⟩,
   ⟨"t1", "s3", 3, some 7, none, none, none⟩,
   ⟨"t1", "s4", 4, some 10, none, none, none⟩]

/-- Observation A of the backfill example: arrival 5, departure absent. -/
def obsA : DelayRow := ⟨"r1", "t1", 1, "s1", some 5, none⟩

/-- Observation B of the backfill example: same key, arrival absent,
departure 7. -/
def obsB : DelayRow := ⟨"r1", "t1", 1, "s1", none, some 7⟩

/-- A row with its delay column erased: two rows with the same eraseDelay
image agree on every column the delay-column builder reads (trip_id,
arrival_delay, departure_delay) and on every column the interpolator reads
besides the delay itself. -/
def eraseDelay (r : TripRow) : TripRow := { r with delay := none }

/-- A three-stop trip whose middle stop has no observation, so the
interpolator genuinely fills it: distances 0, 3, 10, departure delays
10, absent, 30, terminal arrival delay 25. -/
def exRows9 : List TripRow :=
  [⟨"t1", "s1", 1, some 0, none, some 10, none⟩,
   ⟨"t1", "s2", 2, some 3, none, none, none⟩,
   ⟨"t1", "s3", 3, some 10, some 25, some 30, none⟩]

theorem charListLt_irrefl : ∀ l : List Char, charListLt l l = false := by
  intro l
  induction l with
  | nil => rfl
  | cons a l ih => simp [charListLt, ih, lt_irrefl]

theorem charListLt_trans : ∀ a b c : List Char,
    charListLt a b = true → charListLt b c = true → charListLt a c = true := by
  intro a
  induction a with
  | nil =>
      intro b c h1 h2
      cases b with
      | nil => simp [charListLt] at h1
      | cons y ys =>
          cases c with
          | nil => simp [charListLt] at h2
          | cons z zs => simp [charListLt]
  | cons x xs ih =>
      intro b c h1 h2
      cases b with
      | nil => simp [charListLt] at h1
      | cons y ys =>
          cases c with
          | nil => simp [charListLt] at h2
          | cons z zs =>
              simp only [charListLt, Bool.or_eq_true, Bool.and_eq_true,
                decide_eq_true_eq, beq_iff_eq] at h1 h2 ⊢
              rcases h1 with h1 | ⟨e1, l1⟩
              · rcases h2 with h2 | ⟨e2, l2⟩
                · exact Or.inl (lt_trans h1 h2)
                · exact Or.inl (e2 ▸ h1)
              · rcases h2 with h2 | ⟨e2, l2⟩
                · exact Or.inl (e1 ▸ h2)
                · exact Or.inr ⟨e1.trans e2, ih ys zs l1 l2⟩

theorem charListLt_connex : ∀ a b : List Char, a ≠ b →
    charListLt a b = true ∨ charListLt b a = true := by
  intro a
  induction a with
  | nil =>
      intro b hne
      cases b with
      | nil => exact absurd rfl hne
      | cons y ys => exact Or.inl (by simp [charListLt])
  | cons x xs ih =>
      intro b hne
      cases b with
      | nil => exact Or.inr (by simp [charListLt])
      | cons y ys =>
          rcases lt_trichotomy x y with h | h | h
          · exact Or.inl (by simp [charListLt, h])
          · subst h
            have hys : xs ≠ ys := fun e => hne (by rw [e])
            rcases ih ys hys with h2 | h2
            · exact Or.inl (by simp [charListLt, h2])
            · exact Or.inr (by simp [charListLt, h2])
          · exact Or.inr (by simp [charListLt, h])

theorem strLt_trans {a b c : String} (h1 : strLt a b = true) (h2 : strLt b c = true) :
    strLt a c = true := charListLt_trans a.data b.data c.data h1 h2

theorem strLt_irrefl (a : String) : strLt a a = false := charListLt_irrefl a.data

theorem strLt_connex {a b : String} (h : a ≠ b) : strLt a b = true ∨ strLt b a = true :=
  charListLt_connex a.data b.data (fun e => h (congrArg String.mk e))

theorem strLt_asymm {a b : String} (h1 : strLt a b = true) (h2 : strLt b a = true) : False := by
  have := strLt_trans h1 h2
  rw [strLt_irrefl] at this
  exact Bool.false_ne_true this

theorem keyLex_total (a b : String × String × ℤ) : keyLex a b = true ∨ keyLex b a = true := by
  by_cases h1 : a.1 = b.1
  · by_cases h2 : a.2.1 = b.2.1
    · rcases Int.le_total a.2.2 b.2.2 with h | h
      · exact Or.inl (by simp [keyLex, h1, h2, h])
      · exact Or.inr (by simp [keyLex, h1.symm, h2.symm, h])
    · rcases strLt_connex h2 with h | h
      · exact Or.inl (by simp [keyLex, h1, h])
      · exact Or.inr (by simp [keyLex, h1.symm, h])
  · rcases strLt_connex h1 with h | h
    · exact Or.inl (by simp [keyLex, h])
    · exact Or.inr (by simp [keyLex, h])

theorem keyLex_trans {a b c : String × String × ℤ}
    (h1 : keyLex a b = true) (h2 : keyLex b c = true) : keyLex a c = true := by
  simp only [keyLex, Bool.or_eq_true, Bool.and_eq_true, decide_eq_true_eq,
    beq_iff_eq] at h1 h2 ⊢
  rcases h1 with h1 | ⟨e1, h1⟩
  · rcases h2 with h2 | ⟨e2, h2⟩
    · exact Or.inl (strLt_trans h1 h2)
    · exact Or.inl (e2 ▸ h1)
  · rcases h2 with h2 | ⟨e2, h2⟩
    · exact Or.inl (e1 ▸ h2)
    · refine Or.inr ⟨e1.trans e2, ?_⟩
      rcases h1 with h1 | ⟨f1, h1⟩
      · rcases h2 with h2 | ⟨f2, h2⟩
        · exact Or.inl (strLt_trans h1 h2)
        · exact Or.inl (f2 ▸ h1)
      · rcases h2 with h2 | ⟨f2, h2⟩
        · exact Or.inl (f1 ▸ h2)
        · exact Or.inr ⟨f1.trans f2, le_trans h1 h2⟩

theorem keyLex_antisymm {a b : String × String × ℤ}
    (h1 : keyLex a b = true) (h2 : keyLex b a = true) : a = b := by
  simp only [keyLex, Bool.or_eq_true, Bool.and_eq_true, decide_eq_true_eq,
    beq_iff_eq] at h1 h2
  rcases h1 with h1 | ⟨e1, h1⟩
  · rcases h2 with h2 | ⟨e2, h2⟩
    · exact (strLt_asymm h1 h2).elim
    · exact absurd h1 (by rw [e2, strLt_irrefl]; exact Bool.false_ne_true)
  · rcases h2 with h2 | ⟨e2, h2⟩
    · exact absurd h2 (by rw [e1, strLt_irrefl]; exact Bool.false_ne_true)
    · rcases h1 with h1 | ⟨f1, h1⟩
      · rcases h2 with h2 | ⟨f2, h2⟩
        · exact (strLt_asymm h1 h2).elim
        · exact absurd h1 (by rw [f2, strLt_irrefl]; exact Bool.false_ne_true)
      · rcases h2 with h2 | ⟨f2, h2⟩
        · exact absurd h2 (by rw [f1, strLt_irrefl]; exact Bool.false_ne_true)
        · have : a.2.2 = b.2.2 := le_antisymm h1 h2
          exact Prod.ext e1 (Prod.ext f1 this)

theorem obsLe_total (a b : DelayRow) : obsLe a b = true ∨ obsLe b a = true :=
  keyLex_total (obsKey a) (obsKey b)

theorem obsLe_trans {a b c : DelayRow} (h1 : obsLe a b = true) (h2 : obsLe b c = true) :
    obsLe a c = true := keyLex_trans h1 h2

theorem mem_insertLe {α : Type} (le : α → α → Bool) (a x : α) :
    ∀ l : List α, x ∈ insertLe le a l ↔ x = a ∨ x ∈ l := by
  intro l
  induction l with
  | nil => simp [insertLe]
  | cons b l ih =>
      by_cases h : le a b = true
      · simp [insertLe, h]
      · simp [insertLe, h, ih]
        tauto

theorem length_insertLe {α : Type} (le : α → α → Bool) (a : α) :
    ∀ l : List α, (insertLe le a l).length = l.length + 1 := by
  intro l
  induction l with
  | nil => rfl
  | cons b l ih =>
      by_cases h : le a b = true
      · simp [insertLe, h]
      · simp [insertLe, h, ih]

theorem length_sortLe {α : Type} (le : α → α → Bool) :
    ∀ l : List α, (sortLe le l).length = l.length := by
  intro l
  induction l with
  | nil => rfl
  | cons a l ih => simp [sortLe, length_insertLe, ih]

theorem mem_sortLe {α : Type} (le : α → α → Bool) (x : α) :
    ∀ l : List α, x ∈ sortLe le l ↔ x ∈ l := by
  intro l
  induction l with
  | nil => simp [sortLe]
  | cons a l ih => simp [sortLe, mem_insertLe, ih]

theorem pairwise_insertLe {α : Type} (le : α → α → Bool)
    (htot : ∀ x y : α, le x y = true ∨ le y x = true)
    (htrans : ∀ x y z : α, le x y = true → le y z = true → le x z = true)
    (a : α) : ∀ l : List α, l.Pairwise (fun x y => le x y = true) →
      (insertLe le a l).Pairwise (fun x y => le x y = true) := by
  intro l
  induction l with
  | nil => intro h; simp [insertLe]
  | cons b l ih =>
      intro h
      rcases List.pairwise_cons.1 h with ⟨hb, hl⟩
      by_cases hab : le a b = true
      · rw [insertLe, if_pos hab]
        refine List.pairwise_cons.2 ⟨?_, h⟩
        intro y hy
        rcases List.mem_cons.1 hy with rfl | hy
        · exact hab
        · exact htrans a b y hab (hb y hy)
      · rw [insertLe, if_neg hab]
        refine List.pairwise_cons.2 ⟨?_, ih hl⟩
        intro y hy
        rcases (mem_insertLe le a y l).1 hy with hya | hy
        · rw [hya]
          rcases htot a b with h' | h'
          · exact absurd h' hab
          · exact h'
        · exact hb y hy

theorem pairwise_sortLe {α : Type} (le : α → α → Bool)
    (htot : ∀ x y : α, le x y = true ∨ le y x = true)
    (htrans : ∀ x y z : α, le x y = true → le y z = true → le x z = true) :
    ∀ l : List α, (sortLe le l).Pairwise (fun x y => le x y = true) := by
  intro l
  induction l with
  | nil => simp [sortLe]
  | cons a l ih => exact pairwise_insertLe le htot htrans a _ ih

theorem obsKey_mergeInto (k r : DelayRow) : obsKey (mergeInto k r) = obsKey k := rfl

theorem backfillGo_keys_mem : ∀ (l : List DelayRow) (k : DelayRow),
    ∀ x ∈ backfillGo k l, obsKey x = obsKey k ∨ ∃ y ∈ l, obsKey x = obsKey y := by
  intro l
  induction l with
  | nil =>
      intro k x hx
      rcases List.mem_singleton.1 hx with rfl
      exact Or.inl rfl
  | cons r rest ih =>
      intro k x hx
      rw [backfillGo] at hx
      by_cases h : obsKey r = obsKey k
      · rw [if_pos h] at hx
        rcases ih (mergeInto k r) x hx with h' | ⟨y, hy, h'⟩
        · exact Or.inl (h'.trans (obsKey_mergeInto k r))
        · exact Or.inr ⟨y, List.mem_cons_of_mem r hy, h'⟩
      · rw [if_neg h] at hx
        rcases List.mem_cons.1 hx with rfl | hx
        · exact Or.inl rfl
        · rcases ih r x hx with h' | ⟨y, hy, h'⟩
          · exact Or.inr ⟨r, List.mem_cons_self r rest, h'⟩
          · exact Or.inr ⟨y, List.mem_cons_of_mem r hy, h'⟩

theorem backfillGo_pairwise_ne : ∀ (l : List DelayRow) (k : DelayRow),
    (∀ y ∈ l, keyLex (obsKey k) (obsKey y) = true) →
    l.Pairwise (fun x y => obsLe x y = true) →
    (backfillGo k l).Pairwise (fun x y => obsKey x ≠ obsKey y) := by
  intro l
  induction l with
  | nil => intro k _ _; simp [backfillGo]
  | cons r rest ih =>
      intro k hk hp
      rcases List.pairwise_cons.1 hp with ⟨hr, hrest⟩
      rw [backfillGo]
      by_cases h : obsKey r = obsKey k
      · rw [if_pos h]
        refine ih (mergeInto k r) ?_ hrest
        intro y hy
        rw [obsKey_mergeInto, ← h]
        exact hr y hy
      · rw [if_neg h]
        refine List.pairwise_cons.2 ⟨?_, ih r (fun y hy => hr y hy) hrest⟩
        intro x hx hkx
        rcases backfillGo_keys_mem rest r x hx with h' | ⟨y, hy, h'⟩
        · exact h (h' ▸ hkx).symm
        · have h1 : keyLex (obsKey k) (obsKey r) = true := hk r (List.mem_cons_self r rest)
          have h2 : keyLex (obsKey r) (obsKey y) = true := hr y hy
          have hky : obsKey y = obsKey k := by rw [← h', ← hkx]
          rw [hky] at h2
          exact h (keyLex_antisymm h2 h1)

theorem backfillGo_mem_some : ∀ (l : List DelayRow) (k : DelayRow),
    (k.arrival_delay.isSome || k.departure_delay.isSome) = true →
    (∀ y ∈ l, (y.arrival_delay.isSome || y.departure_delay.isSome) = true) →
    ∀ x ∈ backfillGo k l, (x.arrival_delay.isSome || x.departure_delay.isSome) = true := by
  intro l
  induction l with
  | nil =>
      intro k hk _ x hx
      rcases List.mem_singleton.1 hx with rfl
      exact hk
  | cons r rest ih =>
      intro k hk hl x hx
      rw [backfillGo] at hx
      by_cases h : obsKey r = obsKey k
      · rw [if_pos h] at hx
        refine ih (mergeInto k r) ?_ (fun y hy => hl y (List.mem_cons_of_mem r hy)) x hx
        rcases Bool.or_eq_true_iff.1 hk with h' | h'
        · rcases Option.isSome_iff_exists.1 h' with ⟨v, hv⟩
          simp [mergeInto, hv]
        · rcases Option.isSome_iff_exists.1 h' with ⟨v, hv⟩
          simp [mergeInto, hv]
      · rw [if_neg h] at hx
        rcases List.mem_cons.1 hx with rfl | hx
        · exact hk
        · exact ih r (hl r (List.mem_cons_self r rest))
            (fun y hy => hl y (List.mem_cons_of_mem r hy)) x hx

theorem combineRows_unique_keys (rows : List DelayRow) :
    (combineRows rows).Pairwise (fun x y => obsKey x ≠ obsKey y) := by
  rw [combineRows]
  have hp := pairwise_sortLe obsLe obsLe_total (fun x y z => obsLe_trans) (dropBothNull (dropDuplicates rows))
  cases hs : sortLe obsLe (dropBothNull (dropDuplicates rows)) with
  | nil => simp [backfill]
  | cons k l =>
      rw [hs] at hp
      rcases List.pairwise_cons.1 hp with ⟨hk, hl⟩
      exact backfillGo_pairwise_ne l k hk hl

theorem combineRows_some_delay (rows : List DelayRow) :
    ∀ x ∈ combineRows rows, (x.arrival_delay.isSome || x.departure_delay.isSome) = true := by
  rw [combineRows]
  have hmem : ∀ y ∈ sortLe obsLe (dropBothNull (dropDuplicates rows)),
      (y.arrival_delay.isSome || y.departure_delay.isSome) = true := by
    intro y hy
    have hmem2 := (mem_sortLe obsLe y _).1 hy
    rw [dropBothNull] at hmem2
    exact (List.mem_filter.1 hmem2).2
  cases hs : sortLe obsLe (dropBothNull (dropDuplicates rows)) with
  | nil => simp [backfill]
  | cons k l =>
      rw [hs] at hmem
      exact backfillGo_mem_some l k (hmem k (List.mem_cons_self k l))
        (fun y hy => hmem y (List.mem_cons_of_mem k hy))

/-- C2: for every list of delay frames accepted by combine_delays, the output
contains no two records with the same (route_id, trip_id, stop_sequence) key
and no record whose arrival and departure delays are both absent. -/
theorem combine_delays_unique_keys_and_some_delay (frames : List (List DelayRow))
    (out : List DelayRow) (h : combine_delays frames = .ok out) :
    out.Pairwise (fun x y => obsKey x ≠ obsKey y) ∧
    ∀ r ∈ out, (r.arrival_delay.isSome || r.departure_delay.isSome) = true := by
  rw [combine_delays] at h
  by_cases he : frames.isEmpty
  · rw [if_pos he] at h
    cases h
  · rw [if_neg he] at h
    cases h
    exact ⟨combineRows_unique_keys _, combineRows_some_delay _⟩

theorem combine_delays_unique_keys_and_some_delay_witness :
    (combineRows [obsA, obsB]).Pairwise (fun x y => obsKey x ≠ obsKey y) ∧
    ∀ r ∈ combineRows [obsA, obsB],
      (r.arrival_delay.isSome || r.departure_delay.isSome) = true :=
  combine_delays_unique_keys_and_some_delay [[obsA], [obsB]] (combineRows [obsA, obsB]) rfl

theorem firstSome_or_cons (a b : Option ℚ) (t : List (Option ℚ)) :
    firstSome ((a.or b) :: t) = firstSome (a :: b :: t) := by
  cases a <;> cases b <;> simp [firstSome, Option.or]

theorem backfillGo_same_key : ∀ (l : List DelayRow) (k : DelayRow),
    (∀ r ∈ l, obsKey r = obsKey k) →
    backfillGo k l = [{ k with
      arrival_delay := firstSome (k.arrival_delay :: l.map (fun r => r.arrival_delay)),
      departure_delay := firstSome (k.departure_delay :: l.map (fun r => r.departure_delay)) }] := by
  intro l
  induction l with
  | nil =>
      intro k _
      have ha : firstSome [k.arrival_delay] = k.arrival_delay := by
        cases h : k.arrival_delay <;> simp [firstSome, h]
      have hd : firstSome [k.departure_delay] = k.departure_delay := by
        cases h : k.departure_delay <;> simp [firstSome, h]
      simp [backfillGo, ha, hd]
  | cons r rest ih =>
      intro k hk
      rw [backfillGo, if_pos (hk r (List.mem_cons_self r rest))]
      rw [ih (mergeInto k r)
        (fun y hy => (hk y (List.mem_cons_of_mem r hy)).trans (obsKey_mergeInto k r).symm)]
      simp only [mergeInto, List.map_cons]
      rw [firstSome_or_cons, firstSome_or_cons]

/-- C3: combine_delays merges same-key records by first-wins backfill: the
merged record of a same-key block keeps, for each delay field, the first
present value in sort order, so the block's first record never has a present
field overwritten and later records only fill its absent fields; and the
spec's example A = (arrival 5, departure absent), B = (same key, arrival
absent, departure 7) with A before B merges to (arrival 5, departure 7). -/
theorem combine_delays_first_wins_backfill :
    (∀ (k : DelayRow) (l : List DelayRow), (∀ r ∈ l, obsKey r = obsKey k) →
        backfillGo k l = [{ k with
          arrival_delay := firstSome (k.arrival_delay :: l.map (fun r => r.arrival_delay)),
          departure_delay :=
            firstSome (k.departure_delay :: l.map (fun r => r.departure_delay)) }]) ∧
    combine_delays [[obsA], [obsB]] = .ok [⟨"r1", "t1", 1, "s1", some 5, some 7⟩] :=
  ⟨fun k l h => backfillGo_same_key l k h, rfl⟩

theorem combine_delays_first_wins_backfill_witness :
    backfillGo obsA [obsB] = [{ obsA with
      arrival_delay := firstSome (obsA.arrival_delay :: [obsB].map (fun r => r.arrival_delay)),
      departure_delay :=
        firstSome (obsA.departure_delay :: [obsB].map (fun r => r.departure_delay)) }] :=
  combine_delays_first_wins_backfill.1 obsA [obsB] (by decide)

theorem filter_key_length_le_one (k : String × String × ℤ) :
    ∀ ds : List ObsRow, ds.Pairwise (fun a b => obsJoinKey a ≠ obsJoinKey b) →
      (ds.filter (fun d => decide (obsJoinKey d = k))).length ≤ 1 := by
  intro ds
  induction ds with
  | nil => intro _; simp
  | cons d rest ih =>
      intro hp
      rcases List.pairwise_cons.1 hp with ⟨hd, hrest⟩
      by_cases h : obsJoinKey d = k
      · have hempty : rest.filter (fun x => decide (obsJoinKey x = k)) = [] := by
          rw [List.filter_eq_nil_iff]
          intro x hx
          simp only [decide_eq_true_eq]
          intro hk
          exact hd x hx (h.trans hk.symm)
        simp [List.filter_cons, h, hempty]
      · simp only [List.filter_cons, decide_eq_true_eq]
        rw [if_neg h]
        exact ih hrest

theorem length_leftMerge_of_unique (st : List StopTimeRow) (ds : List ObsRow)
    (hu : ds.Pairwise (fun a b => obsJoinKey a ≠ obsJoinKey b)) :
    (leftMerge st ds).length = st.length := by
  induction st with
  | nil => rfl
  | cons s rest ih =>
      rw [leftMerge, List.map_cons, List.flatten_cons]
      rw [leftMerge] at ih
      rw [List.length_append, ih, List.length_cons]
      have hle := filter_key_length_le_one (stJoinKey s) ds hu
      cases hf : ds.filter (fun d => decide (obsJoinKey d = stJoinKey s)) with
      | nil =>
          simp [hf]
          omega
      | cons m ms =>
          rw [hf] at hle
          cases ms with
          | nil =>
              simp [hf]
              omega
          | cons m2 ms2 => simp at hle

/-- C1 (amended): when the pipeline returns at all and the merged
observations have pairwise-distinct (trip_id, stop_id, stop_sequence) join
keys after the route_id drop, the output of build_augmented_stop_times has
exactly as many rows as the schedule for the date. -/
theorem build_rowcount_of_unique_keys (dir : GtfsrDir) (st : List StopTimeRow) (date : String)
    (ds : List ObsRow) (h : mergedObs dir st date = .ok ds)
    (hu : ds.Pairwise (fun a b => obsJoinKey a ≠ obsJoinKey b)) :
    build_augmented_stop_times dir st date = .ok (sortLe astLe (leftMerge st ds)) ∧
    (sortLe astLe (leftMerge st ds)).length = st.length := by
  constructor
  · simp only [build_augmented_stop_times, h]
    rfl
  · rw [length_sortLe]
    exact length_leftMerge_of_unique st ds hu

theorem build_rowcount_of_unique_keys_witness :
    build_augmented_stop_times exDir2 exSt1 exDate1 =
      .ok (sortLe astLe (leftMerge exSt1 [⟨"t1", 1, "s1", some 5, none⟩])) ∧
    (sortLe astLe (leftMerge exSt1 [⟨"t1", 1, "s1", some 5, none⟩])).length = exSt1.length :=
  build_rowcount_of_unique_keys exDir2 exSt1 exDate1 [⟨"t1", 1, "s1", some 5, none⟩]
    rfl (by decide)

/-- C1 counterexample: a one-row schedule joined against two admitted
snapshots that observe the same (trip, stop, stop_sequence) under two
distinct route_ids yields two output rows, not one: the dedup key of the
merge includes route_id, which is dropped before the left join, so the join
keys collide and the left join duplicates the scheduled row. -/
theorem build_rowcount_counterexample :
    (build_augmented_stop_times exDir1 exSt1 exDate1).map (fun l => l.length) = .ok 2 ∧
    exSt1.length = 1 ∧ (2 : ℕ) ≠ 1 :=
  ⟨rfl, rfl, by decide⟩

/-- C6 (code bug): when the padded end time reaches 24:00:00 the source sets
the window's end date to `str(int(date) + 1)`, the numeric successor of the
YYYYMMDD string, which is the following calendar date only inside a month:
for 2016-01-31 it produces the non-date string 20160132 instead of 20160201,
and the resulting end_datetime lexicographically excludes every snapshot
taken on 2016-02-01, where the intended window would admit the early-morning
ones. The time-of-day is indeed rendered modulo 24 hours, and below 24:00:00
the end date is the service date itself. -/
theorem service_window_end_date_bug :
    windowEndDate "20160131" 86400 = "20160132" ∧
    calendarNextDate "20160131" = some "20160201" ∧
    "20160132" ≠ "20160201" ∧
    windowEndDate "20160131" 86399 = "20160131" ∧
    windowEndDate "20160115" 86400 = "20160116" ∧
    calendarNextDate "20160115" = some "20160116" ∧
    computeEndDatetime "20160131" [⟨"t1", "s1", 1, "07:00:00", "24:10:00", some 0⟩] =
      some "20160132003000" ∧
    strLe "20160201000100" "20160132003000" = false ∧
    strLe "20160201000100" "20160201002000" = true :=
  ⟨rfl, rfl, by decide, rfl, rfl, rfl, rfl, by decide, by decide⟩

/-- C10 (code bug): in the retry loop of collect_feeds the `continue` in the
exception handler skips the `n += 1` at the end of the loop body, so when
every fetch attempt raises, the state never changes and the guard
`not success and n <= num_tries` stays true for every positive attempt cap:
the loop never terminates, contradicting the docstring's promise to try at
most num_tries times. A successful attempt does exit the loop. -/
theorem collect_feeds_retry_diverges :
    (∀ k : ℕ, iterFail k retryInit = retryInit) ∧
    (∀ numTries : ℕ, retryGuard (numTries + 1) retryInit = true) ∧
    retryStep false retryInit = ⟨true, 2⟩ := by
  refine ⟨?_, ?_, rfl⟩
  · intro k
    induction k with
    | zero => rfl
    | succ k ih => simpa [iterFail, retryStep] using ih
  · intro numTries
    simp [retryGuard, retryInit, Nat.succ_le_succ]

theorem scanEntities_clean : ∀ pre : List JVal, pre.all entityClean = true →
    scanEntities pre = .ok (pre.filterMap entityRow) := by
  intro pre
  induction pre with
  | nil => intro _; rfl
  | cons e pre ih =>
      intro h
      rw [List.all_cons, Bool.and_eq_true] at h
      have he := h.1
      have hpre := h.2
      rw [scanEntities, List.filterMap_cons]
      cases hp : parseEntity e with
      | skip =>
          simp only [entityRow, hp]
          exact ih hpre
      | row r =>
          simp only [entityRow, hp]
          rw [ih hpre]
          rfl
      | caught =>
          unfold entityClean at he
          rw [hp] at he
          simp at he
      | valueErr =>
          unfold entityClean at he
          rw [hp] at he
          simp at he

theorem scanEntities_caught_after : ∀ (pre : List JVal) (bad : JVal) (rest : List JVal),
    pre.all entityClean = true → parseEntity bad = .caught →
    scanEntities (pre ++ bad :: rest) = .ok (pre.filterMap entityRow) := by
  intro pre
  induction pre with
  | nil =>
      intro bad rest _ hbad
      rw [List.nil_append, scanEntities, hbad]
      rfl
  | cons e pre ih =>
      intro bad rest h hbad
      rw [List.all_cons, Bool.and_eq_true] at h
      have he := h.1
      have hpre := h.2
      rw [List.cons_append, scanEntities, List.filterMap_cons]
      cases hp : parseEntity e with
      | skip =>
          simp only [entityRow, hp]
          exact ih bad rest hpre hbad
      | row r =>
          simp only [entityRow, hp]
          rw [ih bad rest hpre hbad]
          rfl
      | caught =>
          unfold entityClean at he
          rw [hp] at he
          simp at he
      | valueErr =>
          unfold entityClean at he
          rw [hp] at he
          simp at he

/-- C7 (amended): a missing-field or wrong-type error (the caught
KeyError/TypeError class) while scanning an entity raises nothing, but it
aborts the scan: the snapshot contributes exactly the observations of the
entities before the failing one (zero only when the first retained entity
fails), not zero in general; entities lacking a trip_update substructure are
merely skipped without affecting the rest. -/
theorem extract_delays_error_handling_amended :
    (∀ (pre : List JVal) (bad : JVal) (rest : List JVal),
        pre.all entityClean = true → parseEntity bad = .caught →
        scanEntities (pre ++ bad :: rest) = .ok (pre.filterMap entityRow)) ∧
    (∀ (e : JVal) (es : List JVal), parseEntity e = .skip →
        scanEntities (e :: es) = scanEntities es) := by
  refine ⟨scanEntities_caught_after, ?_⟩
  intro e es h
  rw [scanEntities, h]

theorem extract_delays_error_handling_amended_witness :
    scanEntities ([goodEnt] ++ badEnt :: [goodEnt]) = .ok ([goodEnt].filterMap entityRow) :=
  extract_delays_error_handling_amended.1 [goodEnt] badEnt [goodEnt] (by decide) (by decide)

/-- C7 counterexample: in a feed whose second entity is structurally broken
(its trip_update lacks the trip reference) and whose first entity is
well-formed, extract_delays raises nothing but returns the one observation
parsed before the error, not an empty frame as the claim states. -/
theorem extract_delays_partial_counterexample :
    parseEntity badEnt = .caught ∧
    extract_delays feedC7 = .ok ([⟨"r1", "t1", 1, "s1", some 5, none⟩], some "100") ∧
    ([(⟨"r1", "t1", 1, "s1", some 5, none⟩ : DelayRow)]).length ≠ 0 :=
  ⟨rfl, rfl, by decide⟩

theorem extractFrames_length : ∀ (adm : List (String × JVal)) (frames : List (List DelayRow)),
    extractFrames adm = .ok frames → frames.length = adm.length := by
  intro adm
  induction adm with
  | nil =>
      intro frames h
      cases h
      rfl
  | cons f rest ih =>
      intro frames h
      rw [extractFrames] at h
      cases h1 : extract_delays f.2 with
      | error e => rw [h1] at h; cases h
      | ok d =>
          rw [h1] at h
          cases h2 : extractFrames rest with
          | error e => rw [h2] at h; cases h
          | ok ds =>
              rw [h2] at h
              cases h
              simp [ih ds h2]

theorem exceptBind_ok {α β : Type} (a : α) (f : α → Except PipeErr β) :
    (Except.ok a >>= f) = f a := rfl

theorem exceptMap_ok {α β : Type} (a : α) (f : α → β) :
    Except.map f (Except.ok a : Except PipeErr α) = Except.ok (f a) := rfl

/-- C8 (amended): the missing-directory check is indeed the up-front fatal
error, but it is not the only one: the pipeline also raises when zero
snapshots are admitted (pd.concat of an empty frame list) and when a
snapshot's content triggers an uncaught parse error; whenever at least one
snapshot is admitted and every admitted snapshot extracts without an uncaught
error, build + clean completes and returns a table, the cleaning stage never
raising at all. -/
theorem pipeline_ok_amended :
    (∀ (dir : GtfsrDir) (st : List StopTimeRow) (date : String) (t : ℚ),
        dir.present = false → buildAndClean dir st date t = .error .badPath) ∧
    (∀ (dir : GtfsrDir) (st : List StopTimeRow) (date : String) (t : ℚ)
        (adm : List (String × JVal)) (frames : List (List DelayRow)),
        dir.present = true →
        admittedFiles dir date st = some adm →
        extractFrames adm = .ok frames →
        adm ≠ [] →
        ∃ out, buildAndClean dir st date t = .ok out) := by
  constructor
  · intro dir st date t h
    simp only [buildAndClean, build_augmented_stop_times, mergedObs, h, Bool.not_false, if_true]
    rfl
  · intro dir st date t adm frames hpres hadm hext hne
    refine ⟨clean_augmented_stop_times
        (sortLe astLe (leftMerge st ((combineRows frames.flatten).map delRouteId))) t, ?_⟩
    have hlen := extractFrames_length adm frames hext
    have hframes : frames.isEmpty = false := by
      cases frames with
      | nil =>
          cases adm with
          | nil => exact absurd rfl hne
          | cons a l => simp at hlen
      | cons a l => rfl
    have hcomb : combine_delays frames = .ok (combineRows frames.flatten) := by
      simp only [combine_delays, hframes, Bool.false_eq_true, if_false]
    simp only [buildAndClean, build_augmented_stop_times, mergedObs, hpres, hadm, hext,
      hcomb, Bool.not_true, Bool.false_eq_true, if_false, exceptBind_ok, exceptMap_ok]

theorem pipeline_ok_amended_witness :
    ∃ out, buildAndClean exDir2 exSt1 exDate1 1 = .ok out :=
  pipeline_ok_amended.2 exDir2 exSt1 exDate1 1 exDir2.files
    [[⟨"r1", "t1", 1, "s1", some 5, none⟩]] rfl rfl rfl (List.cons_ne_nil _ _)

/-- C8 counterexample: an existing, non-empty snapshot directory whose single
snapshot falls outside the admission window leaves zero delay frames, and the
`pd.concat` inside combine_delays raises (ValueError), so an existing
directory does not guarantee the merge pipeline completes. -/
theorem pipeline_raises_on_zero_admitted :
    buildAndClean exDir8 exSt1 exDate1 1 = .error .concatEmpty ∧
    exDir8.present = true ∧
    exDir8.files ≠ [] :=
  ⟨rfl, rfl, List.cons_ne_nil _ _⟩

theorem all_congrB {α : Type} (p q : α → Bool) :
    ∀ l : List α, (∀ x ∈ l, p x = q x) → l.all p = l.all q := by
  intro l
  induction l with
  | nil => intro _; rfl
  | cons a l ih =>
      intro h
      rw [List.all_cons, List.all_cons, h a (List.mem_cons_self a l),
        ih (fun x hx => h x (List.mem_cons_of_mem a hx))]

theorem map_congrB {α β : Type} (f g : α → β) :
    ∀ l : List α, (∀ x ∈ l, f x = g x) → l.map f = l.map g := by
  intro l
  induction l with
  | nil => intro _; rfl
  | cons a l ih =>
      intro h
      rw [List.map_cons, List.map_cons, h a (List.mem_cons_self a l),
        ih (fun x hx => h x (List.mem_cons_of_mem a hx))]

theorem appendGo_eq_claim : ∀ (rows : List TripRow) (c : ℚ),
    rows.Pairwise (fun a b => a.trip_id = b.trip_id → a.stop_sequence < b.stop_sequence) →
    appendGo c rows = claimAppendDelayCol rows c := by
  intro rows
  induction rows with
  | nil => intro c _; rfl
  | cons r rest ih =>
      intro c hp
      rcases List.pairwise_cons.1 hp with ⟨hr, hrest⟩
      rw [appendGo, claimAppendDelayCol, List.map_cons]
      have hhead : rest.all (fun s => !(s.trip_id == r.trip_id)) =
          isMaxSeqOfTrip (r :: rest) r := by
        rw [isMaxSeqOfTrip, List.all_cons]
        have h1 : (!(r.trip_id == r.trip_id) || decide (r.stop_sequence ≤ r.stop_sequence)) =
            true := by simp
        rw [h1, Bool.true_and]
        refine all_congrB _ _ rest ?_
        intro s hs
        cases hst : s.trip_id == r.trip_id with
        | false => simp [hst]
        | true =>
            have hlt := hr s hs (beq_iff_eq.1 hst).symm
            simp [hst, hlt, not_le.2 hlt]
      have htail : appendGo c rest = rest.map (fun x =>
          { x with delay := (nullifyFishy c
              (if isMaxSeqOfTrip (r :: rest) x then x.arrival_delay
               else x.departure_delay)) }) := by
        rw [ih c hrest, claimAppendDelayCol]
        refine map_congrB _ _ rest ?_
        intro x hx
        have hfac : isMaxSeqOfTrip (r :: rest) x = isMaxSeqOfTrip rest x := by
          rw [isMaxSeqOfTrip, isMaxSeqOfTrip, List.all_cons]
          by_cases ht : r.trip_id = x.trip_id
          · have hlt := hr x hx ht
            have : (!(r.trip_id == x.trip_id) || decide (r.stop_sequence ≤ x.stop_sequence)) =
                true := by simp [ht, le_of_lt hlt]
            rw [this, Bool.true_and]
          · have : (!(r.trip_id == x.trip_id) || decide (r.stop_sequence ≤ x.stop_sequence)) =
                true := by simp [ht]
            rw [this, Bool.true_and]
        rw [hfac]
      rw [hhead, htail]

/-- C5 (amended): append_delay_col gives every stop its departure_delay
except the positionally last row of each trip group, which gets its
arrival_delay; when each trip's rows appear in strictly increasing
stop_sequence order — as the pipeline always arranges them — that row is
exactly the stop with the maximum stop_sequence, and the claim's rule holds,
including its two examples (delays 10, 20 and terminal arrival 25; a delay of
magnitude 4000 is nullified by the 3600 cutoff). -/
theorem append_delay_col_last_row_rule :
    (∀ (rows : List TripRow) (c : ℚ),
        rows.Pairwise (fun a b => a.trip_id = b.trip_id → a.stop_sequence < b.stop_sequence) →
        append_delay_col rows c = claimAppendDelayCol rows c) ∧
    (append_delay_col exRows5 3600).map (fun r => r.delay) = [some 10, some 20, some 25] ∧
    nullifyFishy 3600 (some 4000) = none ∧
    nullifyFishy 3600 (some (-4000)) = none :=
  ⟨fun rows c h => appendGo_eq_claim rows c h, by decide, by decide, by decide⟩

theorem append_delay_col_last_row_rule_witness :
    append_delay_col exRows5 3600 = claimAppendDelayCol exRows5 3600 :=
  append_delay_col_last_row_rule.1 exRows5 3600 (by decide)

/-- C5 counterexample: in a trip whose two rows are not sorted by
stop_sequence, the source assigns arrival_delay to the positionally last row
(stop_sequence 1), not to the stop with the maximum stop_sequence as the
claim states: the code yields delays (10, 7) where the claim's rule yields
(5, 20). -/
theorem append_delay_col_counterexample :
    append_delay_col exRows5bad 3600 ≠ claimAppendDelayCol exRows5bad 3600 ∧
    (append_delay_col exRows5bad 3600).map (fun r => r.delay) = [some 10, some 7] ∧
    (claimAppendDelayCol exRows5bad 3600).map (fun r => r.delay) = [some 5, some 20] :=
  ⟨by decide, by decide, by decide⟩

theorem appendGo_map_trip_id : ∀ (l : List TripRow) (c : ℚ),
    (appendGo c l).map (fun r => r.trip_id) = l.map (fun r => r.trip_id) := by
  intro l
  induction l with
  | nil => intro c; rfl
  | cons r rest ih =>
      intro c
      rw [appendGo, List.map_cons, List.map_cons, ih]

theorem all_eq_all_map_trip : ∀ (m : List TripRow) (t : String),
    m.all (fun s => !(s.trip_id == t)) =
      (m.map (fun r => r.trip_id)).all (fun u => !(u == t)) := by
  intro m t
  induction m with
  | nil => rfl
  | cons r rest ih => rw [List.all_cons, List.map_cons, List.all_cons, ih]

theorem appendGo_all_trip (l : List TripRow) (c : ℚ) (t : String) :
    (appendGo c l).all (fun s => !(s.trip_id == t)) = l.all (fun s => !(s.trip_id == t)) := by
  rw [all_eq_all_map_trip, all_eq_all_map_trip, appendGo_map_trip_id]

theorem appendGo_idem : ∀ (l : List TripRow) (c : ℚ),
    appendGo c (appendGo c l) = appendGo c l := by
  intro l
  induction l with
  | nil => intro c; rfl
  | cons r rest ih =>
      intro c
      rw [appendGo]
      rw [appendGo]
      rw [appendGo_all_trip, ih]

theorem interpolate_delays_noop (rows : List TripRow) (t : ℚ) (nd : Option ℕ)
    (h : rows.all (fun r => r.delay.isSome) = true) :
    interpolate_delays rows t nd = rows := by
  rw [interpolate_delays, if_pos h]

theorem length_setDelayAt : ∀ (l : List TripRow) (i : ℕ) (v : Option ℚ),
    (setDelayAt l i v).length = l.length := by
  intro l
  induction l with
  | nil => intro i v; cases i <;> rfl
  | cons r rest ih =>
      intro i v
      cases i with
      | zero => rfl
      | succ i => simp [setDelayAt, ih]

theorem distAt_setDelayAt : ∀ (l : List TripRow) (i j : ℕ) (v : Option ℚ),
    distAt (setDelayAt l i v) j = distAt l j := by
  intro l
  induction l with
  | nil => intro i j v; cases i <;> rfl
  | cons r rest ih =>
      intro i j v
      cases i with
      | zero => cases j <;> rfl
      | succ i =>
          cases j with
          | zero => rfl
          | succ j => exact ih i j v

theorem dists_setDelayAt : ∀ (l : List TripRow) (i : ℕ) (v : Option ℚ),
    (setDelayAt l i v).map (fun r => r.shape_dist_traveled) =
      l.map (fun r => r.shape_dist_traveled) := by
  intro l
  induction l with
  | nil => intro i v; cases i <;> rfl
  | cons r rest ih =>
      intro i v
      cases i with
      | zero => rfl
      | succ i => simp [setDelayAt, ih]

theorem delayAt_setDelayAt_ne : ∀ (l : List TripRow) (i j : ℕ) (v : Option ℚ), i ≠ j →
    delayAt (setDelayAt l i v) j = delayAt l j := by
  intro l
  induction l with
  | nil => intro i j v _; cases i <;> rfl
  | cons r rest ih =>
      intro i j v hne
      cases i with
      | zero =>
          cases j with
          | zero => exact absurd rfl hne
          | succ j => rfl
      | succ i =>
          cases j with
          | zero => rfl
          | succ j => exact ih i j v (fun e => hne (by rw [e]))

theorem delayAt_setDelayAt_zero : ∀ (l : List TripRow) (v : Option ℚ), l ≠ [] →
    delayAt (setDelayAt l 0 v) 0 = v := by
  intro l v h
  cases l with
  | nil => exact absurd rfl h
  | cons r rest => rfl

theorem firstSomeIdxAux_some : ∀ (g : List TripRow) (i j : ℕ),
    firstSomeIdxAux g i = some j →
    i ≤ j ∧ (delayAt g (j - i)).isSome = true := by
  intro g
  induction g with
  | nil => intro i j h; cases h
  | cons r rest ih =>
      intro i j h
      rw [firstSomeIdxAux] at h
      cases hr : r.delay.isSome with
      | true =>
          rw [hr, if_pos rfl] at h
          cases h
          refine ⟨le_refl i, ?_⟩
          simpa [delayAt, rowAt] using hr
      | false =>
          rw [hr] at h
          simp only [Bool.false_eq_true, if_false] at h
          rcases ih (i + 1) j h with ⟨hle, hd⟩
          refine ⟨le_trans (Nat.le_succ i) hle, ?_⟩
          have hji : j - i = (j - (i + 1)) + 1 := by omega
          rw [hji]
          exact hd

theorem firstSomeIdx_delay (g : List TripRow) (j : ℕ) (h : firstSomeIdx g = some j) :
    (delayAt g j).isSome = true := by
  have := (firstSomeIdxAux_some g 0 j h).2
  simpa using this

theorem firstSomeIdxAux_min : ∀ (g : List TripRow) (i j : ℕ),
    firstSomeIdxAux g i = some j →
    ∀ k, (delayAt g k).isSome = true → j ≤ i + k := by
  intro g
  induction g with
  | nil => intro i j h; cases h
  | cons r rest ih =>
      intro i j h k hk
      rw [firstSomeIdxAux] at h
      cases hr : r.delay.isSome with
      | true =>
          rw [hr, if_pos rfl] at h
          cases h
          exact Nat.le_add_right i k
      | false =>
          rw [hr] at h
          simp only [Bool.false_eq_true, if_false] at h
          cases k with
          | zero =>
              rw [delayAt, rowAt] at hk
              rw [hk] at hr
              cases hr
          | succ k =>
              have := ih (i + 1) j h k hk
              omega

theorem lastSomeIdxAux_some : ∀ (g : List TripRow) (i j : ℕ),
    lastSomeIdxAux g i = some j →
    i ≤ j ∧ j < i + g.length ∧ (delayAt g (j - i)).isSome = true := by
  intro g
  induction g with
  | nil => intro i j h; cases h
  | cons r rest ih =>
      intro i j h
      rw [lastSomeIdxAux] at h
      cases ha : lastSomeIdxAux rest (i + 1) with
      | some k =>
          rw [ha] at h
          cases h
          rcases ih (i + 1) j ha with ⟨hle, hlt, hd⟩
          refine ⟨le_trans (Nat.le_succ i) hle, by simp [List.length_cons]; omega, ?_⟩
          have hji : j - i = (j - (i + 1)) + 1 := by omega
          rw [hji]
          exact hd
      | none =>
          rw [ha] at h
          cases hr : r.delay.isSome with
          | true =>
              rw [hr, if_pos rfl] at h
              cases h
              refine ⟨le_refl i, by simp [List.length_cons], ?_⟩
              simpa [delayAt, rowAt] using hr
          | false =>
              rw [hr] at h
              simp at h

theorem lastSomeIdx_delay (g : List TripRow) (j : ℕ) (h : lastSomeIdx g = some j) :
    (delayAt g j).isSome = true ∧ j < g.length := by
  rcases lastSomeIdxAux_some g 0 j h with ⟨_, hlt, hd⟩
  simp only [Nat.zero_add] at hlt
  simpa using ⟨hd, hlt⟩

theorem lastSomeIdxAux_none : ∀ (g : List TripRow) (i : ℕ),
    lastSomeIdxAux g i = none → ∀ r ∈ g, r.delay.isSome = false := by
  intro g
  induction g with
  | nil => intro i _ r hr; cases hr
  | cons r rest ih =>
      intro i h x hx
      rw [lastSomeIdxAux] at h
      cases ha : lastSomeIdxAux rest (i + 1) with
      | some k => rw [ha] at h; cases h
      | none =>
          rw [ha] at h
          cases hr : r.delay.isSome with
          | true => rw [hr, if_pos rfl] at h; cases h
          | false =>
              rcases List.mem_cons.1 hx with rfl | hx
              · exact hr
              · exact ih (i + 1) ha x hx

theorem rowAt_oob : ∀ (g : List TripRow) (j : ℕ), g.length ≤ j → rowAt g j = default := by
  intro g
  induction g with
  | nil => intro j _; cases j <;> rfl
  | cons r rest ih =>
      intro j hj
      cases j with
      | zero => simp at hj
      | succ j =>
          rw [rowAt]
          exact ih j (by simpa using hj)

theorem rowAt_mem : ∀ (g : List TripRow) (j : ℕ), j < g.length → rowAt g j ∈ g := by
  intro g
  induction g with
  | nil => intro j hj; simp at hj
  | cons r rest ih =>
      intro j hj
      cases j with
      | zero => exact List.mem_cons_self r rest
      | succ j =>
          rw [rowAt]
          exact List.mem_cons_of_mem r (ih j (by simpa using hj))

theorem lastSomeIdx_exists (g : List TripRow) (j0 : ℕ) (h : firstSomeIdx g = some j0) :
    ∃ j1, lastSomeIdx g = some j1 := by
  cases hl : lastSomeIdx g with
  | some j1 => exact ⟨j1, rfl⟩
  | none =>
      have hall := lastSomeIdxAux_none g 0 hl
      have hd := firstSomeIdx_delay g j0 h
      have hlt : j0 < g.length := by
        by_contra hge
        push_neg at hge
        rw [delayAt, rowAt_oob g j0 hge] at hd
        cases hd
      have := hall (rowAt g j0) (rowAt_mem g j0 hlt)
      rw [delayAt] at hd
      rw [this] at hd
      cases hd

theorem lastSomeIdx_setZero (g : List TripRow) (v : Option ℚ) (hv : v.isSome = true)
    (j : ℕ) (hj : lastSomeIdx g = some j) :
    lastSomeIdx (setDelayAt g 0 v) = some j := by
  cases g with
  | nil => cases hj
  | cons r rest =>
      rw [lastSomeIdx, lastSomeIdxAux] at hj
      show lastSomeIdxAux ({ r with delay := v } :: rest) 0 = some j
      rw [lastSomeIdxAux]
      cases ha : lastSomeIdxAux rest (0 + 1) with
      | some k =>
          rw [ha] at hj
          exact hj
      | none =>
          rw [ha] at hj
          rw [hv]
          cases hr : r.delay.isSome with
          | false => rw [hr] at hj; simp at hj
          | true =>
              rw [hr, if_pos rfl] at hj
              simpa using hj

theorem distDiffGt_self (d : Option ℚ) (t : ℚ) (ht : 0 ≤ t) : distDiffGt d d t = false := by
  cases d with
  | none => rfl
  | some x =>
      rw [distDiffGt]
      simp only [sub_self, decide_eq_false_iff_not, not_lt]
      rw [absQ, if_neg (lt_irrefl 0)]
      exact ht

theorem pinVal_isSome (t : ℚ) (g : List TripRow) (i j : ℕ)
    (hd : (delayAt g j).isSome = true) : (pinVal t g i j).isSome = true := by
  rw [pinVal]
  by_cases h : distDiffGt (distAt g i) (distAt g j) t = true
  · rw [if_pos h]
    rfl
  · rw [if_neg h]
    exact hd

theorem firstSomeIdx_min (g : List TripRow) (j0 : ℕ) (h : firstSomeIdx g = some j0) :
    ∀ k, (delayAt g k).isSome = true → j0 ≤ k := by
  intro k hk
  have := firstSomeIdxAux_min g 0 j0 h k hk
  simpa using this

theorem delayAt_after_pinZero (t : ℚ) (g : List TripRow) (j0 : ℕ) (ht : 0 ≤ t)
    (hne : g ≠ []) (hj0 : j0 = 0) :
    delayAt (setDelayAt g 0 (pinVal t g 0 j0)) 0 = delayAt g 0 := by
  rw [delayAt_setDelayAt_zero g _ hne, hj0, pinVal, distDiffGt_self _ t ht]
  rw [if_neg (by simp)]

theorem pinVal_after_first (t : ℚ) (g : List TripRow) (j0 j1 i : ℕ) (ht : 0 ≤ t)
    (hf : firstSomeIdx g = some j0) (hl : lastSomeIdx g = some j1) (hne : g ≠ []) :
    pinVal t (setDelayAt g 0 (pinVal t g 0 j0)) i j1 = pinVal t g i j1 := by
  set v := pinVal t g 0 j0 with hvdef
  have hdel : delayAt (setDelayAt g 0 v) j1 = delayAt g j1 := by
    cases hj1 : j1 with
    | zero =>
        have hj0 : j0 = 0 := by
          have hd1 := (lastSomeIdx_delay g j1 hl).1
          rw [hj1] at hd1
          have h1 := firstSomeIdx_min g j0 hf 0 hd1
          omega
        rw [hvdef]
        exact delayAt_after_pinZero t g j0 ht hne hj0
    | succ k => exact delayAt_setDelayAt_ne g 0 (k + 1) _ (by omega)
  rw [pinVal, pinVal, distAt_setDelayAt, distAt_setDelayAt, hdel]

theorem pin_eq_specPin (t : ℚ) (g : List TripRow) (ht : 0 ≤ t) : pin t g = specPin t g := by
  rw [pin, specPin]
  cases hf : firstSomeIdx g with
  | none =>
      cases hl : lastSomeIdx g with
      | none => rfl
      | some j1 => rfl
  | some j0 =>
      have hne : g ≠ [] := by
        intro he
        rw [he] at hf
        cases hf
      obtain ⟨j1, hl⟩ := lastSomeIdx_exists g j0 hf
      have hv : (pinVal t g 0 j0).isSome = true :=
        pinVal_isSome t g 0 j0 (firstSomeIdx_delay g j0 hf)
      have hl1 : lastSomeIdx (setDelayAt g 0 (pinVal t g 0 j0)) = some j1 :=
        lastSomeIdx_setZero g _ hv j1 hl
      simp only [hl, hl1]
      rw [length_setDelayAt]
      rw [pinVal_after_first t g j0 j1 (g.length - 1) ht hf hl hne]

theorem dists_specPin (t : ℚ) (g : List TripRow) :
    (specPin t g).map (fun r => r.shape_dist_traveled) =
      g.map (fun r => r.shape_dist_traveled) := by
  rw [specPin]
  cases hf : firstSomeIdx g with
  | none => cases hl : lastSomeIdx g <;> rfl
  | some j0 =>
      cases hl : lastSomeIdx g with
      | none => rfl
      | some j1 => rw [dists_setDelayAt, dists_setDelayAt]

theorem npInterp_mem : ∀ (pts : List (ℚ × ℚ)),
    pts.Pairwise (fun u v => u.1 < v.1) →
    ∀ x y : ℚ, (x, y) ∈ pts → npInterp x pts = y := by
  intro pts
  induction pts with
  | nil => intro _ x y h; cases h
  | cons p rest ih =>
      intro hp x y hm
      rcases List.pairwise_cons.1 hp with ⟨hhead, hrest⟩
      cases rest with
      | nil =>
          rcases List.mem_singleton.1 hm with rfl
          rfl
      | cons q rest2 =>
          rcases List.mem_cons.1 hm with he | hm2
          · have hx : x = p.1 := by rw [← he]
            have hy : y = p.2 := by rw [← he]
            rw [npInterp, if_pos (le_of_eq hx), hy]
          · have hx : p.1 < x := by
              have := hhead (x, y) hm2
              simpa using this
            rw [npInterp, if_neg (not_le.2 hx)]
            rcases List.mem_cons.1 hm2 with he | hm3
            · have hxq : x = q.1 := by rw [← he]
              have hyq : y = q.2 := by rw [← he]
              have hne : q.1 - p.1 ≠ 0 := by
                have : p.1 < q.1 := by
                  have := hhead q (List.mem_cons_self q rest2)
                  simpa using this
                intro hz
                have : q.1 = p.1 := by linarith [sub_eq_zero.1 hz]
                linarith
              rw [if_pos (le_of_eq hxq), hxq, hyq]
              field_simp
            · have hqx : q.1 < x := by
                have := (List.pairwise_cons.1 hrest).1 (x, y) hm3
                simpa using this
              rw [if_neg (not_le.2 hqx)]
              exact ih hrest x y hm2

theorem anchors_pairwise : ∀ p : List TripRow,
    p.all (fun r => r.shape_dist_traveled.isSome) = true →
    (p.map (fun r => r.shape_dist_traveled)).Pairwise (fun a b => optLtB a b = true) →
    (anchorsOf p).Pairwise (fun u v => u.1 < v.1) := by
  intro p
  induction p with
  | nil => intro _ _; simp [anchorsOf]
  | cons r rest ih =>
      intro hpres hmono
      rw [List.all_cons, Bool.and_eq_true] at hpres
      rw [List.map_cons] at hmono
      rcases List.pairwise_cons.1 hmono with ⟨hhead, hrest⟩
      rw [anchorsOf, List.filterMap_cons]
      cases hd : r.delay with
      | none =>
          exact ih hpres.2 hrest
      | some d =>
          simp only [Option.map_some']
          refine List.pairwise_cons.2 ⟨?_, ih hpres.2 hrest⟩
          intro u hu
          rcases List.mem_filterMap.1 hu with ⟨s, hs, hsu⟩
          cases hsd : s.delay with
          | none => rw [hsd] at hsu; cases hsu
          | some e =>
              rw [hsd] at hsu
              simp only [Option.map_some', Option.some_inj] at hsu
              rcases Option.isSome_iff_exists.1 hpres.1 with ⟨x, hx⟩
              have hspres : s.shape_dist_traveled.isSome = true := by
                have hall := hpres.2
                rw [List.all_eq_true] at hall
                exact hall s hs
              rcases Option.isSome_iff_exists.1 hspres with ⟨y, hy⟩
              have hin : s.shape_dist_traveled ∈ rest.map (fun r => r.shape_dist_traveled) :=
                List.mem_map.2 ⟨s, hs, rfl⟩
              have hlt := hhead s.shape_dist_traveled hin
              rw [hx, hy] at hlt
              rw [optLtB] at hlt
              simp only [decide_eq_true_eq] at hlt
              rw [← hsu, hx, hy]
              simpa using hlt

theorem all_dist_map : ∀ m : List TripRow,
    m.all (fun r => r.shape_dist_traveled.isSome) =
      (m.map (fun r => r.shape_dist_traveled)).all (fun d => d.isSome) := by
  intro m
  induction m with
  | nil => rfl
  | cons r rest ih => rw [List.all_cons, List.map_cons, List.all_cons, ih]

theorem fillGroup_eq_specFillTrip (t : ℚ) (g : List TripRow) (ht : 0 ≤ t)
    (hpres : g.all (fun r => r.shape_dist_traveled.isSome) = true)
    (hmono : (g.map (fun r => r.shape_dist_traveled)).Pairwise
      (fun a b => optLtB a b = true)) :
    fillGroup t g = specFillTrip t g := by
  rw [fillGroup, specFillTrip]
  by_cases hall : g.all (fun r => r.delay.isNone) = true
  · rw [if_pos hall, if_pos hall]
  · rw [if_neg hall, if_neg hall, pin_eq_specPin t g ht]
    have hdists := dists_specPin t g
    have hpres2 : (specPin t g).all (fun r => r.shape_dist_traveled.isSome) = true := by
      rw [all_dist_map, hdists, ← all_dist_map]
      exact hpres
    have hmono2 : ((specPin t g).map (fun r => r.shape_dist_traveled)).Pairwise
        (fun a b => optLtB a b = true) := by
      rw [hdists]
      exact hmono
    have hpw := anchors_pairwise (specPin t g) hpres2 hmono2
    refine map_congrB _ _ (specPin t g) ?_
    intro r hr
    cases hd : r.delay with
    | none =>
        simp only [hd, Option.isSome_none, Bool.false_eq_true, if_false]
    | some d =>
        have hrp : r.shape_dist_traveled.isSome = true := List.all_eq_true.1 hpres2 r hr
        rcases Option.isSome_iff_exists.1 hrp with ⟨x, hx⟩
        have hmem : (x, d) ∈ anchorsOf (specPin t g) :=
          List.mem_filterMap.2 ⟨r, hr, by rw [hd, hx]; rfl⟩
        have hi := npInterp_mem _ hpw x d hmem
        have hcond : r.delay.isSome = true := by rw [hd]; rfl
        simp only [hcond, if_true, hx, Option.map_some', hi]
        rw [← hx]
        split
        · rw [← hd]
        · next hno => exact absurd rfl hno

/-- C4: the per-trip fill of interpolate_delays coincides with the spec's
description — pin the first stop to 0 when its distance to the first stop
with a known delay exceeds the threshold and to that stop's delay otherwise,
symmetrically for the last stop, then fill by piecewise-linear interpolation
over the known anchors — for every nonnegative threshold and every trip whose
distances are present and strictly increasing; and the spec's concrete
example (distances 0, 3, 7, 10, delays null, 50, null, null, threshold 1)
rounds to delays 0, 50, 21, 0. -/
theorem interpolate_delays_pin_and_fill :
    (∀ (t : ℚ) (g : List TripRow), 0 ≤ t →
        g.all (fun r => r.shape_dist_traveled.isSome) = true →
        (g.map (fun r => r.shape_dist_traveled)).Pairwise (fun a b => optLtB a b = true) →
        fillGroup t g = specFillTrip t g) ∧
    interpolate_delays exRows4 1 (some 0) =
      [⟨"t1", "s1", 1, some 0, none, none, some 0⟩,
       ⟨"t1", "s2", 2, some 3, none, none, some 50⟩,
       ⟨"t1", "s3", 3, some 7, none, none, some 21⟩,
       ⟨"t1", "s4", 4, some 10, none, none, some 0⟩] := by
  constructor
  · exact fun t g ht h1 h2 => fillGroup_eq_specFillTrip t g ht h1 h2
  · norm_num [interpolate_delays, groupApply, groupApplyGo, exRows4, fillGroup, pin,
      firstSomeIdx, firstSomeIdxAux, lastSomeIdx, lastSomeIdxAux, setDelayAt, pinVal,
      distDiffGt, distAt, delayAt, rowAt, absQ, anchorsOf, npInterp,
      List.filterMap, List.filter, List.countP, List.countP.go, List.getD,
      round10, roundHalfEven]

theorem interpolate_delays_pin_and_fill_witness :
    fillGroup 1 exRows4 = specFillTrip 1 exRows4 :=
  interpolate_delays_pin_and_fill.1 1 exRows4 (by norm_num) (by decide) (by decide)

theorem map_getD {α β : Type} (g : α → β) :
    ∀ (l1 l2 : List α) (k : ℕ) (d1 d2 : α), l1.map g = l2.map g → k < l1.length →
      g (l1.getD k d1) = g (l2.getD k d2) := by
  intro l1
  induction l1 with
  | nil => intro l2 k d1 d2 _ hk; simp at hk
  | cons a l1 ih =>
      intro l2 k d1 d2 hmap hk
      cases l2 with
      | nil => simp at hmap
      | cons b l2 =>
          rw [List.map_cons, List.map_cons] at hmap
          have hhead : g a = g b := (List.cons.inj hmap).1
          have htail : l1.map g = l2.map g := (List.cons.inj hmap).2
          cases k with
          | zero => simpa using hhead
          | succ k =>
              rw [List.getD_cons_succ, List.getD_cons_succ]
              exact ih l2 k d1 d2 htail (by simpa using hk)

theorem getD_append_len {α : Type} (d : α) :
    ∀ (l1 : List α) (a : α) (l2 : List α), (l1 ++ a :: l2).getD l1.length d = a := by
  intro l1
  induction l1 with
  | nil => intro a l2; rfl
  | cons x l1 ih => intro a l2; simpa [List.getD_cons_succ] using ih a l2

theorem erase_setDelayAt : ∀ (l : List TripRow) (i : ℕ) (v : Option ℚ),
    (setDelayAt l i v).map eraseDelay = l.map eraseDelay := by
  intro l
  induction l with
  | nil => intro i v; cases i <;> rfl
  | cons r rest ih =>
      intro i v
      cases i with
      | zero => rfl
      | succ i => simp only [setDelayAt, List.map_cons, ih]

theorem pin_skel (t : ℚ) (g : List TripRow) :
    (pin t g).map eraseDelay = g.map eraseDelay := by
  rw [pin]
  cases hf : firstSomeIdx g with
  | none => rfl
  | some j0 =>
      cases hl : lastSomeIdx (setDelayAt g 0 (pinVal t g 0 j0)) with
      | none =>
          simp only [hl]
          exact erase_setDelayAt g 0 _
      | some j1 =>
          simp only [hl]
          rw [erase_setDelayAt, erase_setDelayAt]

theorem fillGroup_skel (t : ℚ) (g : List TripRow) :
    (fillGroup t g).map eraseDelay = g.map eraseDelay := by
  rw [fillGroup]
  by_cases hall : g.all (fun r => r.delay.isNone) = true
  · rw [if_pos hall]
  · rw [if_neg hall]
    show ((pin t g).map (fun r =>
        { r with delay := (r.shape_dist_traveled.map
            (fun x => npInterp x (anchorsOf (pin t g)))) })).map eraseDelay =
      g.map eraseDelay
    rw [List.map_map]
    exact (map_congrB _ _ (pin t g) (fun x _ => rfl)).trans (pin_skel t g)

theorem groupApplyGo_skel (f : List TripRow → List TripRow)
    (hf : ∀ g, (f g).map eraseDelay = g.map eraseDelay) (rows : List TripRow) :
    ∀ (remaining before : List TripRow), rows = before ++ remaining →
      (groupApplyGo f rows before remaining).map eraseDelay = remaining.map eraseDelay := by
  intro remaining
  induction remaining with
  | nil => intro before _; rfl
  | cons r rest ih =>
      intro before hrows
      rw [groupApplyGo, List.map_cons, List.map_cons]
      have htail := ih (before ++ [r]) (by rw [hrows, List.append_cons])
      rw [htail]
      have hgrp : rows.filter (fun s => s.trip_id == r.trip_id) =
          before.filter (fun s => s.trip_id == r.trip_id) ++
            r :: rest.filter (fun s => s.trip_id == r.trip_id) := by
        rw [hrows, List.filter_append]
        simp [List.filter_cons]
      have hcnt : before.countP (fun s => s.trip_id == r.trip_id) =
          (before.filter (fun s => s.trip_id == r.trip_id)).length :=
        List.countP_eq_length_filter _ _
      have hlenf : (f (rows.filter (fun s => s.trip_id == r.trip_id))).length =
          (rows.filter (fun s => s.trip_id == r.trip_id)).length := by
        have := congrArg List.length (hf (rows.filter (fun s => s.trip_id == r.trip_id)))
        simpa using this
      have hk : before.countP (fun s => s.trip_id == r.trip_id) <
          (f (rows.filter (fun s => s.trip_id == r.trip_id))).length := by
        rw [hlenf, hgrp, hcnt, List.length_append, List.length_cons]
        omega
      have hhead := map_getD eraseDelay
        (f (rows.filter (fun s => s.trip_id == r.trip_id)))
        (rows.filter (fun s => s.trip_id == r.trip_id))
        (before.countP (fun s => s.trip_id == r.trip_id)) r r
        (hf (rows.filter (fun s => s.trip_id == r.trip_id))) hk
      rw [hhead, hgrp, hcnt, getD_append_len]

theorem groupApply_skel (f : List TripRow → List TripRow)
    (hf : ∀ g, (f g).map eraseDelay = g.map eraseDelay) (rows : List TripRow) :
    (groupApply f rows).map eraseDelay = rows.map eraseDelay :=
  groupApplyGo_skel f hf rows rows [] rfl

theorem interpolate_delays_skel (rows : List TripRow) (t : ℚ) (nd : Option ℕ) :
    (interpolate_delays rows t nd).map eraseDelay = rows.map eraseDelay := by
  rw [interpolate_delays]
  by_cases hall : rows.all (fun r => r.delay.isSome) = true
  · rw [if_pos hall]
  · rw [if_neg hall]
    simp only []
    cases nd with
    | none => exact groupApply_skel (fillGroup t) (fillGroup_skel t) rows
    | some d =>
        rw [List.map_map]
        have : (groupApply (fillGroup t) rows).map (eraseDelay ∘ fun r =>
            { r with delay := r.delay.map (round10 d) }) =
            (groupApply (fillGroup t) rows).map eraseDelay :=
          map_congrB _ _ _ (fun x _ => rfl)
        rw [this]
        exact groupApply_skel (fillGroup t) (fillGroup_skel t) rows

theorem mapTrip_of_skel (l1 l2 : List TripRow)
    (h : l1.map eraseDelay = l2.map eraseDelay) :
    l1.map (fun r => r.trip_id) = l2.map (fun r => r.trip_id) := by
  have e1 : l1.map (fun r => r.trip_id) =
      (l1.map eraseDelay).map (fun r => r.trip_id) := by
    rw [List.map_map]
    rfl
  rw [e1, h, List.map_map]
  rfl

theorem appendGo_of_skel : ∀ (l1 l2 : List TripRow) (c : ℚ),
    l1.map eraseDelay = l2.map eraseDelay → appendGo c l1 = appendGo c l2 := by
  intro l1
  induction l1 with
  | nil =>
      intro l2 c h
      cases l2 with
      | nil => rfl
      | cons b l2 => simp at h
  | cons r1 rest1 ih =>
      intro l2 c h
      cases l2 with
      | nil => simp at h
      | cons r2 rest2 =>
          rw [List.map_cons, List.map_cons] at h
          have he : eraseDelay r1 = eraseDelay r2 := (List.cons.inj h).1
          have htail : rest1.map eraseDelay = rest2.map eraseDelay := (List.cons.inj h).2
          rw [appendGo, appendGo, ih rest2 c htail]
          have htrip : r1.trip_id = r2.trip_id := by
            have h3 := congrArg TripRow.trip_id he
            exact h3
          have harr : r1.arrival_delay = r2.arrival_delay := by
            have h3 := congrArg TripRow.arrival_delay he
            exact h3
          have hdep : r1.departure_delay = r2.departure_delay := by
            have h3 := congrArg TripRow.departure_delay he
            exact h3
          have hcond : rest1.all (fun s => !(s.trip_id == r1.trip_id)) =
              rest2.all (fun s => !(s.trip_id == r2.trip_id)) := by
            rw [all_eq_all_map_trip, all_eq_all_map_trip,
              mapTrip_of_skel rest1 rest2 htail, htrip]
          have hupd : ∀ v : Option ℚ,
              ({ r1 with delay := v } : TripRow) = { r2 with delay := v } := by
            intro v
            have h2 : ({ eraseDelay r1 with delay := v } : TripRow) =
                { eraseDelay r2 with delay := v } := by rw [he]
            exact h2
          have hv : (nullifyFishy c
              (if rest1.all (fun s => !(s.trip_id == r1.trip_id)) then r1.arrival_delay
               else r1.departure_delay)) =
              (nullifyFishy c
              (if rest2.all (fun s => !(s.trip_id == r2.trip_id)) then r2.arrival_delay
               else r2.departure_delay)) := by
            rw [hcond, harr, hdep]
          rw [hv, hupd]

/-- C9: re-running the delay-column builder followed by the interpolator on
the composition's own already-cleaned output, when that output's delay column
is fully resolved, leaves the table unchanged. The interpolator alters only
the delay column, so the re-run builder — which reads only trip_id,
arrival_delay and departure_delay — recomputes exactly its original output,
and the deterministic interpolator then reproduces the cleaned table. This
covers both cleaned outputs the builder alone resolved (where the
interpolator early-returns) and those whose nulls the interpolator filled;
the resolvedness hypothesis records the claim's stated scope. -/
theorem clean_rerun_noop (rows : List TripRow) (c t : ℚ) (nd : Option ℕ)
    (_resolved : (interpolate_delays (append_delay_col rows c) t nd).all
      (fun r => r.delay.isSome) = true) :
    interpolate_delays
        (append_delay_col (interpolate_delays (append_delay_col rows c) t nd) c) t nd =
      interpolate_delays (append_delay_col rows c) t nd := by
  have hskel : (interpolate_delays (append_delay_col rows c) t nd).map eraseDelay =
      (append_delay_col rows c).map eraseDelay :=
    interpolate_delays_skel (append_delay_col rows c) t nd
  have happ : append_delay_col (interpolate_delays (append_delay_col rows c) t nd) c =
      append_delay_col (append_delay_col rows c) c :=
    appendGo_of_skel _ _ c hskel
  rw [happ, append_delay_col, append_delay_col, appendGo_idem]

theorem clean_rerun_noop_witness :
    interpolate_delays
        (append_delay_col (interpolate_delays (append_delay_col exRows9 3600) 1 (some 0))
          3600) 1 (some 0) =
      interpolate_delays (append_delay_col exRows9 3600) 1 (some 0) :=
  clean_rerun_noop exRows9 3600 1 (some 0) (by
    norm_num [interpolate_delays, append_delay_col, appendGo, nullifyFishy, absQ,
      groupApply, groupApplyGo, exRows9, fillGroup, pin, firstSomeIdx, firstSomeIdxAux,
      lastSomeIdx, lastSomeIdxAux, setDelayAt, pinVal, distDiffGt, distAt, delayAt,
      rowAt, anchorsOf, npInterp, List.filterMap, List.filter, List.countP,
      List.countP.go, List.getD, round10, roundHalfEven])
